import Mathlib

/-
Verification of the evmone basic-block pre-analyzer and interpreter driver
(lib/evmone/analysis.cpp, analysis.hpp, execution.cpp), shallowly embedded.

Code is a list of bytes (`List Nat`, each entry a `uint8_t` value); pointers
into the code buffer are modelled as offsets.  The per-revision opcode tables
and the individual opcode handlers live outside the analysed sources, so they
are modelled from the spec where a claim needs them; handler identity (the
`fn` pointer of an instruction) is modelled by the opcode slot the pointer
was taken from, with the BEGINBLOCK intrinsic occupying slot 0x5b exactly as
`OPX_BEGINBLOCK = OP_JUMPDEST` aliases it in analysis.hpp.
-/

namespace evmone

/-- Entry of the 256-slot opcode table (`op_table_entry`, analysis.hpp).
`gas_cost` is an `int16_t` in the source; the per-revision tables (outside
the analysed sources) hold the EVM base costs, which are nonnegative, so it
is modelled as `Nat`. -/
structure op_table_entry where
  gas_cost : Nat
  stack_req : Int
  stack_change : Int
deriving DecidableEq

/-- An opcode table, indexed by the opcode byte (`op_table`, analysis.hpp). -/
abbrev op_table := Nat → op_table_entry

/-- Per-block header (`block_info`, analysis.hpp): `gas_cost : uint32_t`,
`stack_req : int16_t`, `stack_max_growth : int16_t`. -/
structure block_info where
  gas_cost : Nat
  stack_req : Int
  stack_max_growth : Int
deriving DecidableEq

/-- The `clamp` helper of analysis.cpp, `x <= max ? x : max`, for the
nonnegative `gas_cost` accumulator clamped to `uint32_t`. -/
def clampNat (maxv x : Nat) : Nat := if x ≤ maxv then x else maxv

/-- The `clamp` helper of analysis.cpp for the signed stack accumulators
clamped to `int16_t` (both accumulators stay nonnegative, so only the upper
clamp is observable). -/
def clampInt (maxv x : Int) : Int := if x ≤ maxv then x else maxv

/-- The analysis-time block accumulator (`block_analysis`, analysis.cpp).
`gas_cost` is an `int64_t` in the source accumulating nonnegative base
costs, modelled as `Nat`. -/
structure block_analysis where
  gas_cost : Nat
  stack_req : Int
  stack_max_growth : Int
  stack_change : Int
  begin_block_index : Nat
deriving DecidableEq

/-- `block_analysis::close` (analysis.cpp lines 34-39). -/
def block_analysis.close (b : block_analysis) : block_info :=
  { gas_cost := clampNat (2 ^ 32 - 1) b.gas_cost
  , stack_req := clampInt 32767 b.stack_req
  , stack_max_growth := clampInt 32767 b.stack_max_growth }

/-- The `instruction_argument` union (analysis.hpp), as a sum: the union is
discriminated by the opcode class of the instruction holding it.
`push_value` is a pointer into the code buffer, modelled as an offset. -/
inductive instruction_argument where
  | number (n : Int)
  | push_value (off : Nat)
  | small_push_value (v : Nat)
  | block (b : block_info)
deriving DecidableEq

/-- The zero-initialised argument produced by the `instruction` constructor
(`arg{}` value-initialises the `block_info` member). -/
def default_arg : instruction_argument := .block ⟨0, 0, 0⟩

/-- A decoded instruction (`instruction`, analysis.hpp).  `fn` models the
handler pointer by the opcode-table slot it was taken from; the BEGINBLOCK
intrinsic is slot 0x5b (`OPX_BEGINBLOCK = OP_JUMPDEST`). -/
structure instruction where
  fn : Nat
  arg : instruction_argument
deriving DecidableEq

/-- The result of the analysis (`code_analysis`, analysis.hpp); the
`code_end` pointer is the code length in the offset model and is kept
implicitly. -/
structure code_analysis where
  instrs : List instruction
  jumpdest_offsets : List Int
  jumpdest_targets : List Int
deriving DecidableEq

/-- The mutable state of the analysis loop: the analysis being built plus
the open `block_analysis` accumulator. -/
structure analysis_state where
  instrs : List instruction
  jumpdest_offsets : List Int
  jumpdest_targets : List Int
  block : block_analysis
deriving DecidableEq

/-- Terminator test of the `switch` (analysis.cpp lines 87-93):
JUMP, JUMPI, STOP, RETURN, REVERT, SELFDESTRUCT. -/
def is_terminator (op : Nat) : Prop :=
  op = 0x56 ∨ op = 0x57 ∨ op = 0x00 ∨ op = 0xf3 ∨ op = 0xfd ∨ op = 0xff

instance (op : Nat) : Decidable (is_terminator op) := by
  unfold is_terminator; exact inferInstance

/-- `ANY_SMALL_PUSH`: PUSH1..PUSH8, opcodes 0x60..0x67. -/
def is_small_push (op : Nat) : Prop := 0x60 ≤ op ∧ op ≤ 0x67

instance (op : Nat) : Decidable (is_small_push op) := by
  unfold is_small_push; exact inferInstance

/-- `ANY_LARGE_PUSH`: PUSH9..PUSH32, opcodes 0x68..0x7f. -/
def is_large_push (op : Nat) : Prop := 0x68 ≤ op ∧ op ≤ 0x7f

instance (op : Nat) : Decidable (is_large_push op) := by
  unfold is_large_push; exact inferInstance

/-- The gas-observing opcodes of the `switch` (analysis.cpp lines 123-130):
GAS, CALL, CALLCODE, DELEGATECALL, STATICCALL, CREATE, CREATE2, SSTORE. -/
def is_gas_family (op : Nat) : Prop :=
  op = 0x5a ∨ op = 0xf1 ∨ op = 0xf2 ∨ op = 0xf4 ∨ op = 0xfa ∨
  op = 0xf0 ∨ op = 0xf5 ∨ op = 0x55

instance (op : Nat) : Decidable (is_gas_family op) := by
  unfold is_gas_family; exact inferInstance

/-- Number of immediate bytes an opcode tries to consume: `op - PUSH1 + 1`
for any PUSH, zero otherwise. -/
def imm_size (op : Nat) : Nat := if 0x60 ≤ op ∧ op ≤ 0x7f then op - 0x5f else 0

/-- The code position after the opcode at `p` and its immediates, clamped to
the code end exactly as the loop clamps `code_pos` (analysis.cpp lines
99-107 and 116-119); non-push opcodes advance by one. -/
def next_pos (code : List Nat) (p : Nat) : Nat :=
  min (p + 1 + imm_size (code.getD p 0)) code.length

/-- The block-closing condition tested after the `switch` (analysis.cpp line
140): the opcode is a terminator or the next code byte is a JUMPDEST. -/
def closes_block (code : List Nat) (op p1 : Nat) : Prop :=
  is_terminator op ∨ (p1 ≠ code.length ∧ code.getD p1 0 = 0x5b)

instance (code : List Nat) (op p1 : Nat) : Decidable (closes_block code op p1) := by
  unfold closes_block; exact inferInstance

/-- Big-endian assembly of a small-push immediate (analysis.cpp lines
101-107): the byte list is the slice read before `code_end`, `n` the push
size; each byte is or-ed in at `insert_bit_pos`, starting at `(n-1)*8`. -/
def read_push : List Nat → Nat → Nat
  | [], _ => 0
  | b :: bs, n => (b <<< ((n - 1) * 8)) ||| read_push bs (n - 1)

/-- Overwrite the argument of the last instruction, keeping its handler:
the `analysis.instrs.back()` reference written through by the `switch`. -/
def set_last_arg : List instruction → instruction_argument → List instruction
  | [], _ => []
  | [i], a => [⟨i.fn, a⟩]
  | i :: j :: rest, a => i :: set_last_arg (j :: rest) a

/-- Overwrite the argument of the instruction at index `idx`, keeping its
handler: the write `instrs[block.begin_block_index].arg.block = ...`. -/
def set_arg_at : List instruction → Nat → instruction_argument → List instruction
  | [], _, _ => []
  | i :: rest, 0, a => ⟨i.fn, a⟩ :: rest
  | i :: rest, idx + 1, a => i :: set_arg_at rest idx a

/-- The accumulator updates performed before the `switch` (analysis.cpp
lines 65-69): stack requirement, stack change, maximal growth, gas cost. -/
def acc_upd (info : op_table_entry) (b : block_analysis) : block_analysis :=
  ⟨b.gas_cost + info.gas_cost,
   max b.stack_req (info.stack_req - b.stack_change),
   max b.stack_max_growth (b.stack_change + info.stack_change),
   b.stack_change + info.stack_change,
   b.begin_block_index⟩

/-- The argument written by the `switch` (analysis.cpp lines 85-137) to the
instruction just emitted for the opcode at offset `p`: a truncated
big-endian immediate for small pushes, a pointer (offset) to the first
immediate byte for large pushes, the running block gas cost `gas1` for the
gas-observing opcodes, the opcode's own offset for PC; `none` when the
`switch` leaves the argument alone. -/
def step_arg (code : List Nat) (p : Nat) (gas1 : Nat) : Option instruction_argument :=
  let op := code.getD p 0
  if is_small_push op then
    some (.small_push_value (read_push ((code.drop (p + 1)).take (op - 0x5f)) (op - 0x5f)))
  else if is_large_push op then some (.push_value (p + 1))
  else if is_gas_family op then some (.number (gas1 : Int))
  else if op = 0x58 then some (.number (p : Int))
  else none

/-- One iteration of the analysis loop (analysis.cpp lines 60-149), acting
on the opcode byte at offset `p` (`code_pos` before its increment).  The
accumulator updates, the JUMPDEST/emit split, the argument `switch` and the
block-closing step follow the source line by line. -/
def analyze_step (tbl : op_table) (code : List Nat) (p : Nat)
    (st : analysis_state) : analysis_state :=
  let op := code.getD p 0
  let b1 : block_analysis := acc_upd (tbl op) st.block
  let st1 : analysis_state :=
    if op = 0x5b then
      { st with jumpdest_offsets := st.jumpdest_offsets ++ [(p : Int)]
              , jumpdest_targets := st.jumpdest_targets ++ [((st.instrs.length - 1 : Nat) : Int)]
              , block := b1 }
    else
      { st with instrs := st.instrs ++ [⟨op, default_arg⟩], block := b1 }
  let st2 : analysis_state :=
    match step_arg code p b1.gas_cost with
    | some a => { st1 with instrs := set_last_arg st1.instrs a }
    | none => st1
  if closes_block code op (next_pos code p) then
    let closed := set_arg_at st2.instrs b1.begin_block_index (.block b1.close)
    { st2 with instrs := closed ++ [⟨0x5b, default_arg⟩]
             , block := ⟨0, 0, 0, 0, closed.length⟩ }
  else st2

/-- The analysis loop (analysis.cpp lines 60-149).  `fuel` is a Lean-side
termination device: `next_pos` strictly increases the position, so
`code.length` steps always reach the code end. -/
def analyze_loop (tbl : op_table) (code : List Nat) : Nat → Nat → analysis_state → analysis_state
  | 0, _, st => st
  | fuel + 1, p, st =>
    if p < code.length then
      analyze_loop tbl code fuel (next_pos code p) (analyze_step tbl code p st)
    else st

/-- The state right after the first BEGINBLOCK is emitted (analysis.cpp
lines 52-54). -/
def init_state : analysis_state := ⟨[⟨0x5b, default_arg⟩], [], [], ⟨0, 0, 0, 0, 0⟩⟩

/-- The epilogue of `analyze` (analysis.cpp lines 151-156): close the final
block and append the safety STOP. -/
def analyze_finish (st : analysis_state) : code_analysis :=
  ⟨set_arg_at st.instrs st.block.begin_block_index (.block st.block.close) ++ [⟨0x00, default_arg⟩],
   st.jumpdest_offsets, st.jumpdest_targets⟩

/-- `analyze` (analysis.cpp lines 42-161). -/
def analyze (tbl : op_table) (code : List Nat) : code_analysis :=
  analyze_finish (analyze_loop tbl code code.length 0 init_state)

/-- `find_jumpdest` (analysis.hpp lines 146-154).  `std::lower_bound` on the
sorted `jumpdest_offsets` returns the first position whose element is not
less than `offset`; `List.findIdx` of `offset ≤ x` computes that position. -/
def find_jumpdest (a : code_analysis) (offset : Int) : Int :=
  let i := a.jumpdest_offsets.findIdx (fun x => decide (offset ≤ x))
  if i < a.jumpdest_offsets.length then
    if a.jumpdest_offsets.getD i 0 = offset then a.jumpdest_targets.getD i (-1) else -1
  else -1

/-- Status codes of the result (the `evmc_status_code` values the core can
produce, spec section 7). -/
inductive status_code where
  | success
  | revert
  | out_of_gas
  | stack_underflow
  | stack_overflow
  | bad_jump_destination
  | undefined_instruction
deriving DecidableEq

/-- The gas-retention rule of the result assembly (execution.cpp lines
23-24): gas is kept only on SUCCESS or REVERT. -/
def result_gas_left (status : status_code) (gas_left : Int) : Int :=
  if status = .success ∨ status = .revert then gas_left else 0

/-- Modelled from the spec: the JUMP/JUMPI dispatch on the jump-destination
index (spec section 4.3, the handlers themselves are outside the analysed
sources) — on a `find_jumpdest` miss the execution terminates with
BAD_JUMP_DESTINATION, on a hit the returned instruction index is used. -/
def jump_dispatch (a : code_analysis) (offset : Int) : Except status_code Int :=
  if find_jumpdest a offset = -1 then .error .bad_jump_destination
  else .ok (find_jumpdest a offset)

/-- The interpreter state visible to the modelled handlers: remaining gas
and the stack height (the BEGINBLOCK prologue only reads the height). -/
structure exec_state where
  gas_left : Int
  stack_size : Nat
deriving DecidableEq

/-- Modelled from the spec: the dispatch loop of `execute` (execution.cpp
lines 19-21) with the BEGINBLOCK intrinsic prologue of spec section 4.3 and
the STOP handler; the remaining opcode handlers are outside the analysed
sources, and reaching one (or running out of fuel) yields `none`. -/
def exec_loop (instrs : List instruction) : Nat → Nat → exec_state → Option (status_code × exec_state)
  | 0, _, _ => none
  | fuel + 1, pc, st =>
    match instrs.get? pc with
    | none => none
    | some i =>
      if i.fn = 0x5b then
        match i.arg with
        | .block b =>
          if st.gas_left < (b.gas_cost : Int) then some (.out_of_gas, st)
          else if (st.stack_size : Int) < b.stack_req then some (.stack_underflow, st)
          else if (1024 : Int) < (st.stack_size : Int) + b.stack_max_growth then
            some (.stack_overflow, st)
          else exec_loop instrs fuel (pc + 1) ⟨st.gas_left - (b.gas_cost : Int), st.stack_size⟩
        | _ => none
      else if i.fn = 0x00 then some (.success, st)
      else none

/-- A freshly created BEGINBLOCK entry. -/
def bb_instr : instruction := ⟨0x5b, default_arg⟩

/-- The safety STOP entry appended after the loop. -/
def stop_instr : instruction := ⟨0x00, default_arg⟩

/-- Placeholder used as the `getD` default when indexing instruction lists
in statements; all statements also bound the index. -/
def dummy_instr : instruction := ⟨0x100, default_arg⟩

/-- The opcode offsets of the code: the byte positions the analysis loop
visits (all positions except PUSH immediate bytes), generated by `next_pos`
with the same fuel discipline as the loop. -/
def op_positions (code : List Nat) : Nat → Nat → List Nat
  | 0, _ => []
  | fuel + 1, p =>
    if p < code.length then p :: op_positions code (fuel) (next_pos code p) else []

/-- All opcode offsets of the code. -/
def op_positions_all (code : List Nat) : List Nat := op_positions code code.length 0

/-- Spec-side description for the block gas claim, following the spec's
wording: walking the opcodes, sum the base gas costs, and cut the running
sum at every block boundary (a terminator or a following JUMPDEST); the
final partial sum is the last block's. -/
def spec_block_gas_sums (tbl : op_table) (code : List Nat) : Nat → Nat → Nat → List Nat
  | 0, _, acc => [acc]
  | fuel + 1, p, acc =>
    if p < code.length then
      let op := code.getD p 0
      let acc1 := acc + (tbl op).gas_cost
      let p1 := next_pos code p
      if closes_block code op p1 then acc1 :: spec_block_gas_sums tbl code fuel p1 0
      else spec_block_gas_sums tbl code fuel p1 acc1
    else [acc]

/-- Spec-side description for the gas-observing argument claim, following
the spec's wording: each GAS/CALL-family/CREATE-family/SSTORE opcode is
paired with the cumulative block base gas cost up to and including it (the
running sum resets at block boundaries). -/
def spec_gas_args (tbl : op_table) (code : List Nat) : Nat → Nat → Nat → List (Nat × instruction_argument)
  | 0, _, _ => []
  | fuel + 1, p, acc =>
    if p < code.length then
      let op := code.getD p 0
      let acc1 := acc + (tbl op).gas_cost
      let p1 := next_pos code p
      let rest := spec_gas_args tbl code fuel p1 (if closes_block code op p1 then 0 else acc1)
      if is_gas_family op then (op, .number (acc1 : Int)) :: rest else rest
    else []

/-- Spec-side description for the PC argument claim, following the spec's
wording: each PC opcode is paired with its own code offset. -/
def spec_pc_args (code : List Nat) : Nat → Nat → List Int
  | 0, _ => []
  | fuel + 1, p =>
    if p < code.length then
      let rest := spec_pc_args code fuel (next_pos code p)
      if code.getD p 0 = 0x58 then (p : Int) :: rest else rest
    else []

/-- The per-BEGINBLOCK gas costs stored in an instruction list, in order:
`some g` for a BEGINBLOCK whose argument is a block header with gas cost
`g`, `none` recorded for a BEGINBLOCK holding a non-block argument. -/
def bb_gas_list (l : List instruction) : List (Option Nat) :=
  l.filterMap (fun i =>
    if i.fn = 0x5b then
      some (match i.arg with | .block b => some b.gas_cost | _ => none)
    else none)

/-- The gas-observing instructions of an instruction list, in order, paired
with their arguments. -/
def gas_arg_list (l : List instruction) : List (Nat × instruction_argument) :=
  l.filterMap (fun i => if is_gas_family i.fn then some (i.fn, i.arg) else none)

/-- The arguments of the PC instructions of an instruction list, in order. -/
def pc_arg_list (l : List instruction) : List instruction_argument :=
  l.filterMap (fun i => if i.fn = 0x58 then some i.arg else none)

/-- Modelled from the spec: a fragment of the per-revision opcode table
(outside the analysed sources) with the EVM base costs of the opcodes used
by the concrete scenarios: STOP, ADD, PC, GAS, JUMP, JUMPDEST, the PUSH
family; every other slot is left at zero cost. -/
def table_ex : op_table := fun op =>
  if op = 0x00 then ⟨0, 0, 0⟩
  else if op = 0x01 then ⟨3, 2, -1⟩
  else if op = 0x58 then ⟨2, 0, 1⟩
  else if op = 0x5a then ⟨2, 0, 1⟩
  else if op = 0x56 then ⟨8, 1, -1⟩
  else if op = 0x5b then ⟨1, 0, 0⟩
  else if 0x60 ≤ op ∧ op ≤ 0x7f then ⟨3, 0, 1⟩
  else ⟨0, 0, 0⟩

theorem set_last_arg_append (l : List instruction) (i : instruction) (a : instruction_argument) :
    set_last_arg (l ++ [i]) a = l ++ [⟨i.fn, a⟩] := by
  induction l with
  | nil => rfl
  | cons x xs ih => cases xs <;> simpa [set_last_arg] using ih

theorem set_arg_at_length (l : List instruction) (idx : Nat) (a : instruction_argument) :
    (set_arg_at l idx a).length = l.length := by
  induction l generalizing idx with
  | nil => rfl
  | cons x xs ih => cases idx <;> simp [set_arg_at, ih]

theorem set_arg_at_append_cons (front : List instruction) (x : instruction)
    (tail : List instruction) (a : instruction_argument) :
    set_arg_at (front ++ x :: tail) front.length a = front ++ ⟨x.fn, a⟩ :: tail := by
  induction front with
  | nil => rfl
  | cons y ys ih => simpa [set_arg_at] using ih

theorem set_arg_at_fn (l : List instruction) (idx j : Nat) (a : instruction_argument) :
    ((set_arg_at l idx a).getD j dummy_instr).fn = (l.getD j dummy_instr).fn := by
  induction l generalizing idx j with
  | nil => rfl
  | cons x xs ih =>
    cases idx with
    | zero => cases j <;> simp [set_arg_at]
    | succ idx =>
      cases j with
      | zero => simp [set_arg_at]
      | succ j => simpa [set_arg_at] using ih idx j

theorem analyze_loop_of_ge (tbl : op_table) (code : List Nat) (fuel p : Nat)
    (st : analysis_state) (h : code.length ≤ p) : analyze_loop tbl code fuel p st = st := by
  cases fuel <;> simp [analyze_loop, Nat.not_lt.mpr h]

theorem analyze_loop_succ (tbl : op_table) (code : List Nat) (fuel p : Nat)
    (st : analysis_state) (h : p < code.length) :
    analyze_loop tbl code (fuel + 1) p st =
      analyze_loop tbl code fuel (next_pos code p) (analyze_step tbl code p st) := by
  simp [analyze_loop, h]

theorem lt_next_pos (code : List Nat) (p : Nat) (h : p < code.length) :
    p < next_pos code p := by
  unfold next_pos; omega

theorem next_pos_le (code : List Nat) (p : Nat) : next_pos code p ≤ code.length := by
  unfold next_pos; omega

theorem succ_le_next_pos (code : List Nat) (p : Nat) (h : p < code.length) :
    p + 1 ≤ next_pos code p := by
  unfold next_pos; omega

theorem step_arg_jumpdest (code : List Nat) (p g : Nat) (hop : code.getD p 0 = 0x5b) :
    step_arg code p g = none := by
  unfold step_arg
  rw [hop]
  norm_num [is_small_push, is_large_push, is_gas_family]

theorem step_arg_gas_family (code : List Nat) (p g : Nat) (hop : is_gas_family (code.getD p 0)) :
    step_arg code p g = some (.number (g : Int)) := by
  unfold step_arg
  rcases hop with h | h | h | h | h | h | h | h <;>
    rw [h] <;> norm_num [is_small_push, is_large_push, is_gas_family]

theorem step_arg_pc (code : List Nat) (p g : Nat) (hop : code.getD p 0 = 0x58) :
    step_arg code p g = some (.number (p : Int)) := by
  unfold step_arg
  rw [hop]
  norm_num [is_small_push, is_large_push, is_gas_family]

theorem analyze_step_jumpdest (tbl : op_table) (code : List Nat) (p : Nat)
    (front tail : List instruction) (offs tgts : List Int) (blk : block_analysis)
    (hop : code.getD p 0 = 0x5b) (hbbi : blk.begin_block_index = front.length) :
    analyze_step tbl code p ⟨front ++ bb_instr :: tail, offs, tgts, blk⟩ =
      if closes_block code (code.getD p 0) (next_pos code p) then
        ⟨(front ++ ⟨0x5b, .block (acc_upd (tbl (code.getD p 0)) blk).close⟩ :: tail) ++ [bb_instr],
         offs ++ [(p : Int)], tgts ++ [((front.length + tail.length : Nat) : Int)],
         ⟨0, 0, 0, 0, front.length + tail.length + 1⟩⟩
      else ⟨front ++ bb_instr :: tail, offs ++ [(p : Int)],
            tgts ++ [((front.length + tail.length : Nat) : Int)],
            acc_upd (tbl (code.getD p 0)) blk⟩ := by
  have hb : (acc_upd (tbl (code.getD p 0)) blk).begin_block_index = front.length := by
    simpa [acc_upd] using hbbi
  have hnone : step_arg code p (acc_upd (tbl (code.getD p 0)) blk).gas_cost = none :=
    step_arg_jumpdest _ _ _ hop
  have hlen : (front ++ bb_instr :: tail).length - 1 = front.length + tail.length := by
    simp
  have hset : ∀ c : instruction_argument,
      set_arg_at (front ++ bb_instr :: tail) front.length c = front ++ ⟨0x5b, c⟩ :: tail :=
    fun c => set_arg_at_append_cons front bb_instr tail c
  simp only [analyze_step, if_pos hop, hnone, hb, hlen]
  by_cases hcl : closes_block code (code.getD p 0) (next_pos code p)
  · simp only [if_pos hcl, hset, analysis_state.mk.injEq, block_analysis.mk.injEq]
    and_intros <;> first
      | rfl
      | trivial
      | omega
      | (simp [bb_instr]; omega)
      | simp [bb_instr]
  · simp only [if_neg hcl, analysis_state.mk.injEq]
    all_goals
      and_intros <;> first
        | rfl
        | trivial
        | omega
        | (simp [bb_instr]; omega)
        | simp [bb_instr]

theorem analyze_step_op (tbl : op_table) (code : List Nat) (p : Nat)
    (front tail : List instruction) (offs tgts : List Int) (blk : block_analysis)
    (hop : code.getD p 0 ≠ 0x5b) (hbbi : blk.begin_block_index = front.length) :
    analyze_step tbl code p ⟨front ++ bb_instr :: tail, offs, tgts, blk⟩ =
      if closes_block code (code.getD p 0) (next_pos code p) then
        ⟨(front ++ ⟨0x5b, .block (acc_upd (tbl (code.getD p 0)) blk).close⟩ ::
            (tail ++ [⟨code.getD p 0,
              (step_arg code p (acc_upd (tbl (code.getD p 0)) blk).gas_cost).getD default_arg⟩])) ++
          [bb_instr],
         offs, tgts, ⟨0, 0, 0, 0, front.length + tail.length + 2⟩⟩
      else ⟨front ++ bb_instr ::
              (tail ++ [⟨code.getD p 0,
                (step_arg code p (acc_upd (tbl (code.getD p 0)) blk).gas_cost).getD default_arg⟩]),
            offs, tgts, acc_upd (tbl (code.getD p 0)) blk⟩ := by
  have hb : (acc_upd (tbl (code.getD p 0)) blk).begin_block_index = front.length := by
    simpa [acc_upd] using hbbi
  have happ : ∀ x : instruction, (front ++ bb_instr :: tail) ++ [x] =
      front ++ bb_instr :: (tail ++ [x]) := by
    intro x; simp
  have hset : ∀ (x : instruction) (c : instruction_argument),
      set_arg_at (front ++ bb_instr :: (tail ++ [x])) front.length c =
        front ++ ⟨0x5b, c⟩ :: (tail ++ [x]) :=
    fun x c => set_arg_at_append_cons front bb_instr (tail ++ [x]) c
  have hlast : ∀ (x : instruction) (c : instruction_argument),
      set_last_arg ((front ++ bb_instr :: tail) ++ [x]) c =
        front ++ bb_instr :: (tail ++ [⟨x.fn, c⟩]) := by
    intro x c
    rw [set_last_arg_append]
    simp
  simp only [analyze_step, if_neg hop, hb]
  cases harg : step_arg code p (acc_upd (tbl (code.getD p 0)) blk).gas_cost with
  | none =>
    dsimp only
    rw [happ]
    simp only [hset]
    by_cases hcl : closes_block code (code.getD p 0) (next_pos code p)
    · simp only [if_pos hcl, analysis_state.mk.injEq, block_analysis.mk.injEq]
      and_intros <;> first
        | rfl
        | trivial
        | omega
        | (simp [bb_instr]; omega)
        | simp [bb_instr]
    · simp only [if_neg hcl, analysis_state.mk.injEq]
      and_intros <;> first
        | rfl
        | trivial
        | omega
        | (simp [bb_instr]; omega)
        | simp [bb_instr]
  | some a =>
    dsimp only
    simp only [hlast, hset]
    by_cases hcl : closes_block code (code.getD p 0) (next_pos code p)
    · simp only [if_pos hcl, analysis_state.mk.injEq, block_analysis.mk.injEq]
      and_intros <;> first
        | rfl
        | trivial
        | omega
        | (simp [bb_instr]; omega)
        | simp [bb_instr]
    · simp only [if_neg hcl, analysis_state.mk.injEq]
      and_intros <;> first
        | rfl
        | trivial
        | omega
        | (simp [bb_instr]; omega)
        | simp [bb_instr]

theorem bb_gas_list_append (l1 l2 : List instruction) :
    bb_gas_list (l1 ++ l2) = bb_gas_list l1 ++ bb_gas_list l2 := by
  simp [bb_gas_list]

theorem bb_gas_list_non_bb (l : List instruction) (h : ∀ i ∈ l, i.fn ≠ 0x5b) :
    bb_gas_list l = [] := by
  induction l with
  | nil => rfl
  | cons x xs ih =>
    have hx : x.fn ≠ 0x5b := h x (List.mem_cons_self x xs)
    have hxs := ih (fun i hi => h i (List.mem_cons_of_mem x hi))
    simp [bb_gas_list, hx] at hxs ⊢
    exact hxs

theorem bb_gas_list_closed_cons (b : block_info) (rest : List instruction) :
    bb_gas_list (⟨0x5b, .block b⟩ :: rest) = some b.gas_cost :: bb_gas_list rest := by
  simp [bb_gas_list]

theorem c1_finish (front tail : List instruction) (offs tgts : List Int) (blk : block_analysis)
    (hbbi : blk.begin_block_index = front.length)
    (htail : ∀ i ∈ tail, i.fn ≠ 0x5b) :
    bb_gas_list (analyze_finish ⟨front ++ bb_instr :: tail, offs, tgts, blk⟩).instrs
      = bb_gas_list front ++ [some (clampNat (2 ^ 32 - 1) blk.gas_cost)] := by
  have hset : set_arg_at (front ++ bb_instr :: tail) front.length (.block blk.close) =
      front ++ ⟨0x5b, .block blk.close⟩ :: tail :=
    set_arg_at_append_cons front bb_instr tail (.block blk.close)
  simp only [analyze_finish, hbbi, hset]
  rw [bb_gas_list_append, bb_gas_list_append, bb_gas_list_closed_cons,
      bb_gas_list_non_bb tail htail]
  simp [bb_gas_list, block_analysis.close]

theorem spec_bgs_succ (tbl : op_table) (code : List Nat) (f p acc : Nat)
    (hp : p < code.length) :
    spec_block_gas_sums tbl code (f + 1) p acc =
      if closes_block code (code.getD p 0) (next_pos code p) then
        (acc + (tbl (code.getD p 0)).gas_cost) ::
          spec_block_gas_sums tbl code f (next_pos code p) 0
      else spec_block_gas_sums tbl code f (next_pos code p)
        (acc + (tbl (code.getD p 0)).gas_cost) := by
  simp only [spec_block_gas_sums, if_pos hp]

theorem spec_bgs_ge (tbl : op_table) (code : List Nat) (fuel p acc : Nat)
    (hp : code.length ≤ p) : spec_block_gas_sums tbl code fuel p acc = [acc] := by
  cases fuel <;> simp [spec_block_gas_sums, Nat.not_lt.mpr hp]

theorem c1_loop (tbl : op_table) (code : List Nat) : ∀ (fuel p : Nat)
    (front tail : List instruction) (offs tgts : List Int) (blk : block_analysis),
    code.length ≤ p + fuel →
    blk.begin_block_index = front.length →
    (∀ i ∈ tail, i.fn ≠ 0x5b) →
    bb_gas_list (analyze_finish (analyze_loop tbl code fuel p
        ⟨front ++ bb_instr :: tail, offs, tgts, blk⟩)).instrs
      = bb_gas_list front ++
        (spec_block_gas_sums tbl code fuel p blk.gas_cost).map
          (fun g => some (clampNat (2 ^ 32 - 1) g)) := by
  intro fuel
  induction fuel with
  | zero =>
    intro p front tail offs tgts blk hf hbbi htail
    rw [analyze_loop_of_ge tbl code 0 p _ (by omega)]
    rw [c1_finish front tail offs tgts blk hbbi htail]
    rw [spec_bgs_ge tbl code 0 p _ (by omega)]
    simp
  | succ f ih =>
    intro p front tail offs tgts blk hf hbbi htail
    by_cases hp : p < code.length
    case neg =>
      rw [analyze_loop_of_ge tbl code (f + 1) p _ (Nat.le_of_not_lt hp)]
      rw [c1_finish front tail offs tgts blk hbbi htail]
      rw [spec_bgs_ge tbl code (f + 1) p _ (Nat.le_of_not_lt hp)]
      simp
    case pos =>
      rw [analyze_loop_succ tbl code f p _ hp]
      have hf1 : code.length ≤ next_pos code p + f := by
        have := succ_le_next_pos code p hp
        omega
      by_cases hop : code.getD p 0 = 0x5b
      · rw [analyze_step_jumpdest tbl code p front tail offs tgts blk hop hbbi]
        by_cases hcl : closes_block code (code.getD p 0) (next_pos code p)
        · rw [if_pos hcl]
          rw [ih (next_pos code p)
            (front ++ ⟨0x5b, .block (acc_upd (tbl (code.getD p 0)) blk).close⟩ :: tail) []
            (offs ++ [(p : Int)]) (tgts ++ [((front.length + tail.length : Nat) : Int)])
            ⟨0, 0, 0, 0, front.length + tail.length + 1⟩ hf1
            (by simp [List.length_append]; try omega) (by simp)]
          rw [bb_gas_list_append, bb_gas_list_closed_cons, bb_gas_list_non_bb tail htail]
          rw [spec_bgs_succ tbl code f p _ hp, if_pos hcl]
          simp [acc_upd, block_analysis.close]
        · rw [if_neg hcl]
          have hb2 : (acc_upd (tbl (code.getD p 0)) blk).begin_block_index = front.length := by
            simpa [acc_upd] using hbbi
          rw [ih (next_pos code p) front tail
            (offs ++ [(p : Int)]) (tgts ++ [((front.length + tail.length : Nat) : Int)])
            (acc_upd (tbl (code.getD p 0)) blk) hf1 hb2 htail]
          rw [spec_bgs_succ tbl code f p _ hp, if_neg hcl]
          simp [acc_upd]
      · rw [analyze_step_op tbl code p front tail offs tgts blk hop hbbi]
        have htail2 : ∀ i ∈ tail ++ [(⟨code.getD p 0,
            (step_arg code p (acc_upd (tbl (code.getD p 0)) blk).gas_cost).getD default_arg⟩ :
              instruction)], i.fn ≠ 0x5b := by
          intro i hi
          rcases List.mem_append.mp hi with hi | hi
          · exact htail i hi
          · rw [List.mem_singleton] at hi
            subst hi
            exact hop
        by_cases hcl : closes_block code (code.getD p 0) (next_pos code p)
        · rw [if_pos hcl]
          refine (ih (next_pos code p) _ _ _ _ _ hf1 ?_ ?_).trans ?_
          · simp [List.length_append]
            try omega
          · simp
          rw [bb_gas_list_append, bb_gas_list_closed_cons,
              bb_gas_list_non_bb _ htail2]
          rw [spec_bgs_succ tbl code f p _ hp, if_pos hcl]
          simp [acc_upd, block_analysis.close]
        · rw [if_neg hcl]
          refine (ih (next_pos code p) _ _ _ _ _ hf1 ?_ ?_).trans ?_
          · simpa [acc_upd] using hbbi
          · exact htail2
          rw [spec_bgs_succ tbl code f p _ hp, if_neg hcl]
          simp [acc_upd]

/-- C1: for every opcode table (hence every revision) and every code, the
BEGINBLOCK entries of the analysis store, in order, exactly the per-block
sums of the base gas costs of the opcodes between consecutive block
boundaries, each clamped to the maximum of u32. -/
theorem c1_block_gas_cost (tbl : op_table) (code : List Nat) :
    bb_gas_list (analyze tbl code).instrs
      = (spec_block_gas_sums tbl code code.length 0 0).map
          (fun g => some (clampNat (2 ^ 32 - 1) g)) := by
  have h := c1_loop tbl code code.length 0 [] [] [] [] ⟨0, 0, 0, 0, 0⟩ (by omega) rfl (by simp)
  simpa [analyze, init_state, bb_gas_list, bb_instr] using h

theorem analyze_finish_length (st : analysis_state) :
    (analyze_finish st).instrs.length = st.instrs.length + 1 := by
  simp [analyze_finish, set_arg_at_length]

theorem c2_loop (tbl : op_table) (code : List Nat) : ∀ (fuel p : Nat)
    (front tail : List instruction) (offs tgts : List Int) (blk : block_analysis),
    code.length ≤ p + fuel →
    blk.begin_block_index = front.length →
    (analyze_loop tbl code fuel p
        ⟨front ++ bb_instr :: tail, offs, tgts, blk⟩).instrs.length
      ≤ (front ++ bb_instr :: tail).length + 2 * (code.length - p) := by
  intro fuel
  induction fuel with
  | zero =>
    intro p front tail offs tgts blk hf hbbi
    rw [analyze_loop_of_ge tbl code 0 p _ (by omega)]
    simp [List.length_append]
  | succ f ih =>
    intro p front tail offs tgts blk hf hbbi
    by_cases hp : p < code.length
    case neg =>
      rw [analyze_loop_of_ge tbl code (f + 1) p _ (Nat.le_of_not_lt hp)]
      simp [List.length_append]
    case pos =>
      rw [analyze_loop_succ tbl code f p _ hp]
      have hf1 : code.length ≤ next_pos code p + f := by
        have := succ_le_next_pos code p hp
        omega
      have hnp := succ_le_next_pos code p hp
      have hnl := next_pos_le code p
      by_cases hop : code.getD p 0 = 0x5b
      · rw [analyze_step_jumpdest tbl code p front tail offs tgts blk hop hbbi]
        by_cases hcl : closes_block code (code.getD p 0) (next_pos code p)
        · rw [if_pos hcl]
          refine le_trans (ih (next_pos code p) _ _ _ _ _ hf1 ?_) ?_
          · simp [List.length_append]
            try omega
          · simp [List.length_append]
            omega
        · rw [if_neg hcl]
          refine le_trans (ih (next_pos code p) _ _ _ _ _ hf1 ?_) ?_
          · simpa [acc_upd] using hbbi
          · simp [List.length_append]
            omega
      · rw [analyze_step_op tbl code p front tail offs tgts blk hop hbbi]
        by_cases hcl : closes_block code (code.getD p 0) (next_pos code p)
        · rw [if_pos hcl]
          refine le_trans (ih (next_pos code p) _ _ _ _ _ hf1 ?_) ?_
          · simp [List.length_append]
            try omega
          · simp [List.length_append]
            omega
        · rw [if_neg hcl]
          refine le_trans (ih (next_pos code p) _ _ _ _ _ hf1 ?_) ?_
          · simpa [acc_upd] using hbbi
          · simp [List.length_append]
            omega

/-- C2 (amended): the instruction vector of the analysis has at most
2·code_size + 2 entries: each code byte contributes at most its own entry
plus one block-opening BEGINBLOCK, and the initial BEGINBLOCK and the
trailing safety STOP account for the final two. -/
theorem c2_instrs_length_le (tbl : op_table) (code : List Nat) :
    (analyze tbl code).instrs.length ≤ 2 * code.length + 2 := by
  have h := c2_loop tbl code code.length 0 [] [] [] [] ⟨0, 0, 0, 0, 0⟩ (by omega) rfl
  simp only [List.nil_append] at h
  have e : init_state = ⟨bb_instr :: [], [], [], ⟨0, 0, 0, 0, 0⟩⟩ := rfl
  have hfin := analyze_finish_length (analyze_loop tbl code code.length 0 init_state)
  show (analyze_finish (analyze_loop tbl code code.length 0 init_state)).instrs.length ≤
    2 * code.length + 2
  rw [hfin, e]
  simp at h
  omega

/-- C2 (counterexample): for the two-byte code [STOP, STOP] the analysis
has 6 instruction entries, exceeding both claimed bounds code_size + 1 = 3
and code_size + 2 = 4. -/
theorem c2_counterexample :
    (analyze table_ex [0x00, 0x00]).instrs.length = 6 ∧
    ¬((analyze table_ex [0x00, 0x00]).instrs.length ≤ [0x00, 0x00].length + 2) := by
  constructor
  · rfl
  · decide

theorem pairwise_append_lt (l : List Int) (x : Int) (hl : List.Pairwise (· < ·) l)
    (hx : ∀ o ∈ l, o < x) : List.Pairwise (· < ·) (l ++ [x]) := by
  refine List.pairwise_append.mpr ⟨hl, List.pairwise_singleton _ _, ?_⟩
  intro a ha b hb
  rw [List.mem_singleton] at hb
  subst hb
  exact hx a ha

theorem getD_at_split (front : List instruction) (x : instruction)
    (rest : List instruction) :
    (front ++ x :: rest).getD front.length dummy_instr = x := by
  induction front with
  | nil => rfl
  | cons y ys ih => simpa using ih

theorem inv1_loop (tbl : op_table) (code : List Nat) : ∀ (fuel p : Nat)
    (front tail : List instruction) (offs tgts : List Int) (blk : block_analysis),
    code.length ≤ p + fuel →
    blk.begin_block_index = front.length →
    List.Pairwise (· < ·) offs →
    (∀ o ∈ offs, o < (p : Int)) →
    List.Pairwise (· < ·)
      (analyze_finish (analyze_loop tbl code fuel p
        ⟨front ++ bb_instr :: tail, offs, tgts, blk⟩)).jumpdest_offsets := by
  intro fuel
  induction fuel with
  | zero =>
    intro p front tail offs tgts blk hf hbbi hpw hlt
    rw [analyze_loop_of_ge tbl code 0 p _ (by omega)]
    exact hpw
  | succ f ih =>
    intro p front tail offs tgts blk hf hbbi hpw hlt
    by_cases hp : p < code.length
    case neg =>
      rw [analyze_loop_of_ge tbl code (f + 1) p _ (Nat.le_of_not_lt hp)]
      exact hpw
    case pos =>
      rw [analyze_loop_succ tbl code f p _ hp]
      have hf1 : code.length ≤ next_pos code p + f := by
        have := succ_le_next_pos code p hp
        omega
      have hnp := succ_le_next_pos code p hp
      have hlt1 : ∀ o ∈ offs ++ [(p : Int)], o < (next_pos code p : Int) := by
        intro o ho
        rcases List.mem_append.mp ho with ho | ho
        · have := hlt o ho
          have : o < (p : Int) := this
          omega
        · rw [List.mem_singleton] at ho
          subst ho
          exact_mod_cast Nat.lt_of_lt_of_le (Nat.lt_succ_self p) hnp
      have hpw1 : List.Pairwise (· < ·) (offs ++ [(p : Int)]) :=
        pairwise_append_lt offs _ hpw hlt
      by_cases hop : code.getD p 0 = 0x5b
      · rw [analyze_step_jumpdest tbl code p front tail offs tgts blk hop hbbi]
        by_cases hcl : closes_block code (code.getD p 0) (next_pos code p)
        · rw [if_pos hcl]
          exact ih (next_pos code p) _ _ _ _ _ hf1 (by simp [List.length_append]; try omega) hpw1 hlt1
        · rw [if_neg hcl]
          exact ih (next_pos code p) _ _ _ _ _ hf1 (by simpa [acc_upd] using hbbi) hpw1 hlt1
      · rw [analyze_step_op tbl code p front tail offs tgts blk hop hbbi]
        have hlt2 : ∀ o ∈ offs, o < (next_pos code p : Int) := by
          intro o ho
          have := hlt o ho
          omega
        by_cases hcl : closes_block code (code.getD p 0) (next_pos code p)
        · rw [if_pos hcl]
          refine ih (next_pos code p) _ _ _ _ _ hf1 ?_ hpw hlt2
          simp [List.length_append]
          try omega
        · rw [if_neg hcl]
          exact ih (next_pos code p) _ _ _ _ _ hf1 (by simpa [acc_upd] using hbbi) hpw hlt2

theorem inv2_loop (tbl : op_table) (code : List Nat) : ∀ (fuel p : Nat)
    (front tail : List instruction) (offs tgts : List Int) (blk : block_analysis),
    code.length ≤ p + fuel →
    blk.begin_block_index = front.length →
    offs.length = tgts.length →
    (analyze_finish (analyze_loop tbl code fuel p
        ⟨front ++ bb_instr :: tail, offs, tgts, blk⟩)).jumpdest_offsets.length
      = (analyze_finish (analyze_loop tbl code fuel p
          ⟨front ++ bb_instr :: tail, offs, tgts, blk⟩)).jumpdest_targets.length := by
  intro fuel
  induction fuel with
  | zero =>
    intro p front tail offs tgts blk hf hbbi hlen
    rw [analyze_loop_of_ge tbl code 0 p _ (by omega)]
    exact hlen
  | succ f ih =>
    intro p front tail offs tgts blk hf hbbi hlen
    by_cases hp : p < code.length
    case neg =>
      rw [analyze_loop_of_ge tbl code (f + 1) p _ (Nat.le_of_not_lt hp)]
      exact hlen
    case pos =>
      rw [analyze_loop_succ tbl code f p _ hp]
      have hf1 : code.length ≤ next_pos code p + f := by
        have := succ_le_next_pos code p hp
        omega
      have hlen1 : (offs ++ [(p : Int)]).length =
          (tgts ++ [((front.length + tail.length : Nat) : Int)]).length := by
        simp [hlen]
      by_cases hop : code.getD p 0 = 0x5b
      · rw [analyze_step_jumpdest tbl code p front tail offs tgts blk hop hbbi]
        by_cases hcl : closes_block code (code.getD p 0) (next_pos code p)
        · rw [if_pos hcl]
          exact ih (next_pos code p) _ _ _ _ _ hf1 (by simp [List.length_append]; try omega) hlen1
        · rw [if_neg hcl]
          exact ih (next_pos code p) _ _ _ _ _ hf1 (by simpa [acc_upd] using hbbi) hlen1
      · rw [analyze_step_op tbl code p front tail offs tgts blk hop hbbi]
        by_cases hcl : closes_block code (code.getD p 0) (next_pos code p)
        · rw [if_pos hcl]
          refine ih (next_pos code p) _ _ _ _ _ hf1 ?_ hlen
          simp [List.length_append]
          try omega
        · rw [if_neg hcl]
          exact ih (next_pos code p) _ _ _ _ _ hf1 (by simpa [acc_upd] using hbbi) hlen

theorem getD_fn_append_left (l ext : List instruction) (j : Nat) (hj : j < l.length) :
    ((l ++ ext).getD j dummy_instr).fn = (l.getD j dummy_instr).fn := by
  rw [List.getD_append _ _ _ _ hj]

theorem getD_fn_close (front tail : List instruction) (c : instruction)
    (hc : c.fn = 0x5b) (j : Nat) :
    ((front ++ c :: tail).getD j dummy_instr).fn
      = ((front ++ bb_instr :: tail).getD j dummy_instr).fn := by
  induction front generalizing j with
  | nil =>
    cases j with
    | zero => simp [hc, bb_instr]
    | succ j => simp
  | cons y ys ih =>
    cases j with
    | zero => simp
    | succ j => simpa using ih j

theorem getD_fn_tail_ext (front tail ext : List instruction) (x : instruction) (j : Nat)
    (hj : j < (front ++ x :: tail).length) :
    ((front ++ x :: (tail ++ ext)).getD j dummy_instr).fn
      = ((front ++ x :: tail).getD j dummy_instr).fn := by
  have h : front ++ x :: (tail ++ ext) = (front ++ x :: tail) ++ ext := by simp
  rw [h]
  exact getD_fn_append_left (front ++ x :: tail) ext j hj

theorem analyze_finish_fn (st : analysis_state) (j : Nat) (h : j < st.instrs.length) :
    ((analyze_finish st).instrs.getD j dummy_instr).fn
      = (st.instrs.getD j dummy_instr).fn := by
  simp only [analyze_finish]
  rw [List.getD_append _ _ _ _ (by rw [set_arg_at_length]; exact h)]
  exact set_arg_at_fn st.instrs st.block.begin_block_index j (.block st.block.close)

theorem inv3_loop (tbl : op_table) (code : List Nat) : ∀ (fuel p : Nat)
    (front tail : List instruction) (offs tgts : List Int) (blk : block_analysis),
    code.length ≤ p + fuel →
    blk.begin_block_index = front.length →
    (p < code.length → code.getD p 0 = 0x5b → tail = []) →
    (∀ t ∈ tgts, ∃ i : Nat, t = (i : Int) ∧ i < (front ++ bb_instr :: tail).length ∧
        ((front ++ bb_instr :: tail).getD i dummy_instr).fn = 0x5b) →
    ∀ t ∈ (analyze_finish (analyze_loop tbl code fuel p
        ⟨front ++ bb_instr :: tail, offs, tgts, blk⟩)).jumpdest_targets,
      ∃ i : Nat, t = (i : Int) ∧
        i < (analyze_finish (analyze_loop tbl code fuel p
          ⟨front ++ bb_instr :: tail, offs, tgts, blk⟩)).instrs.length ∧
        ((analyze_finish (analyze_loop tbl code fuel p
          ⟨front ++ bb_instr :: tail, offs, tgts, blk⟩)).instrs.getD i dummy_instr).fn = 0x5b := by
  intro fuel
  induction fuel with
  | zero =>
    intro p front tail offs tgts blk hf hbbi hjd htgts
    rw [analyze_loop_of_ge tbl code 0 p _ (by omega)]
    intro t ht
    obtain ⟨i, hti, hilen, hifn⟩ := htgts t ht
    refine ⟨i, hti, ?_, ?_⟩
    · rw [analyze_finish_length]
      exact Nat.lt_succ_of_lt hilen
    · rw [analyze_finish_fn _ _ hilen]
      exact hifn
  | succ f ih =>
    intro p front tail offs tgts blk hf hbbi hjd htgts
    by_cases hp : p < code.length
    case neg =>
      rw [analyze_loop_of_ge tbl code (f + 1) p _ (Nat.le_of_not_lt hp)]
      intro t ht
      obtain ⟨i, hti, hilen, hifn⟩ := htgts t ht
      refine ⟨i, hti, ?_, ?_⟩
      · rw [analyze_finish_length]
        exact Nat.lt_succ_of_lt hilen
      · rw [analyze_finish_fn _ _ hilen]
        exact hifn
    case pos =>
      rw [analyze_loop_succ tbl code f p _ hp]
      have hf1 : code.length ≤ next_pos code p + f := by
        have := succ_le_next_pos code p hp
        omega
      by_cases hop : code.getD p 0 = 0x5b
      · have htl : tail = [] := hjd hp hop
        subst htl
        rw [analyze_step_jumpdest tbl code p front [] offs tgts blk hop hbbi]
        have htgts1 : ∀ t ∈ tgts ++ [((front.length + ([] : List instruction).length : Nat) : Int)],
            ∃ i : Nat, t = (i : Int) ∧ i < (front ++ bb_instr :: ([] : List instruction)).length ∧
              ((front ++ bb_instr :: ([] : List instruction)).getD i dummy_instr).fn = 0x5b := by
          intro t ht
          rcases List.mem_append.mp ht with ht | ht
          · exact htgts t ht
          · rw [List.mem_singleton] at ht
            subst ht
            refine ⟨front.length, by simp, by simp, ?_⟩
            rw [getD_at_split front bb_instr []]
            rfl
        by_cases hcl : closes_block code (code.getD p 0) (next_pos code p)
        · rw [if_pos hcl]
          refine ih (next_pos code p) _ _ _ _ _ hf1 ?_ (fun _ _ => rfl) ?_
          · simp [List.length_append]
            try omega
          · intro t ht
            obtain ⟨i, hti, hilen, hifn⟩ := htgts1 t ht
            have hilen2 : i < (front ++
                [(⟨0x5b, .block (acc_upd (tbl (code.getD p 0)) blk).close⟩ : instruction)]).length := by
              simp only [List.length_append, List.length_cons, List.length_nil] at hilen ⊢
              omega
            refine ⟨i, hti, ?_, ?_⟩
            · simp only [List.length_append, List.length_cons, List.length_nil] at hilen ⊢
              omega
            · exact ((getD_fn_append_left _ [bb_instr] i hilen2).trans
                (getD_fn_close front [] _ rfl i)).trans hifn
        · rw [if_neg hcl]
          refine ih (next_pos code p) _ _ _ _ _ hf1 (by simpa [acc_upd] using hbbi) ?_ htgts1
          intro hlt1 heq1
          exfalso
          exact hcl (Or.inr ⟨Nat.ne_of_lt hlt1, heq1⟩)
      · rw [analyze_step_op tbl code p front tail offs tgts blk hop hbbi]
        by_cases hcl : closes_block code (code.getD p 0) (next_pos code p)
        · rw [if_pos hcl]
          refine ih (next_pos code p) _ _ _ _ _ hf1 ?_ (fun _ _ => rfl) ?_
          · simp [List.length_append]
            try omega
          · intro t ht
            obtain ⟨i, hti, hilen, hifn⟩ := htgts t ht
            have hilen2 : i < (front ++
                (⟨0x5b, .block (acc_upd (tbl (code.getD p 0)) blk).close⟩ : instruction) ::
                  (tail ++ [(⟨code.getD p 0, (step_arg code p
                    (acc_upd (tbl (code.getD p 0)) blk).gas_cost).getD default_arg⟩ :
                      instruction)])).length := by
              simp only [List.length_append, List.length_cons, List.length_nil] at hilen ⊢
              omega
            refine ⟨i, hti, ?_, ?_⟩
            · simp only [List.length_append, List.length_cons, List.length_nil] at hilen ⊢
              omega
            · refine Eq.trans ?_ hifn
              refine (getD_fn_append_left _ [bb_instr] i hilen2).trans ?_
              refine (getD_fn_tail_ext front tail
                [(⟨code.getD p 0, (step_arg code p
                  (acc_upd (tbl (code.getD p 0)) blk).gas_cost).getD default_arg⟩ : instruction)]
                _ i (by simpa using hilen)).trans ?_
              exact getD_fn_close front tail _ rfl i
        · rw [if_neg hcl]
          have hjd1 : next_pos code p < code.length → code.getD (next_pos code p) 0 = 0x5b →
              tail ++ [(⟨code.getD p 0, (step_arg code p
                (acc_upd (tbl (code.getD p 0)) blk).gas_cost).getD default_arg⟩ : instruction)] = [] := by
            intro hlt1 heq1
            exfalso
            exact hcl (Or.inr ⟨Nat.ne_of_lt hlt1, heq1⟩)
          refine ih (next_pos code p) _ _ _ _ _ hf1 (by simpa [acc_upd] using hbbi) hjd1 ?_
          intro t ht
          obtain ⟨i, hti, hilen, hifn⟩ := htgts t ht
          refine ⟨i, hti, ?_, ?_⟩
          · simp only [List.length_append, List.length_cons, List.length_nil] at hilen ⊢
            omega
          · exact (getD_fn_tail_ext front tail
              [(⟨code.getD p 0, (step_arg code p
                (acc_upd (tbl (code.getD p 0)) blk).gas_cost).getD default_arg⟩ : instruction)]
              bb_instr i hilen).trans hifn

/-- C4: for every opcode table (hence every revision) and every code, the
jumpdest offsets of the analysis are strictly ascending, the offset and
target vectors have equal length, and every target is the index of an
instruction whose handler is the BEGINBLOCK intrinsic. -/
theorem c4_jumpdest_tables (tbl : op_table) (code : List Nat) :
    List.Pairwise (· < ·) (analyze tbl code).jumpdest_offsets ∧
    (analyze tbl code).jumpdest_offsets.length = (analyze tbl code).jumpdest_targets.length ∧
    ∀ t ∈ (analyze tbl code).jumpdest_targets, ∃ i : Nat, t = (i : Int) ∧
      i < (analyze tbl code).instrs.length ∧
      ((analyze tbl code).instrs.getD i dummy_instr).fn = 0x5b := by
  have e : init_state = ⟨[] ++ bb_instr :: [], [], [], ⟨0, 0, 0, 0, 0⟩⟩ := rfl
  refine ⟨?_, ?_, ?_⟩
  · show List.Pairwise (· < ·)
      (analyze_finish (analyze_loop tbl code code.length 0 init_state)).jumpdest_offsets
    rw [e]
    exact inv1_loop tbl code code.length 0 [] [] [] [] ⟨0, 0, 0, 0, 0⟩ (by omega) rfl
      (by simp) (by simp)
  · show (analyze_finish (analyze_loop tbl code code.length 0 init_state)).jumpdest_offsets.length
      = (analyze_finish (analyze_loop tbl code code.length 0 init_state)).jumpdest_targets.length
    rw [e]
    exact inv2_loop tbl code code.length 0 [] [] [] [] ⟨0, 0, 0, 0, 0⟩ (by omega) rfl rfl
  · show ∀ t ∈ (analyze_finish (analyze_loop tbl code code.length 0 init_state)).jumpdest_targets,
      ∃ i : Nat, t = (i : Int) ∧
        i < (analyze_finish (analyze_loop tbl code code.length 0 init_state)).instrs.length ∧
        ((analyze_finish (analyze_loop tbl code code.length 0 init_state)).instrs.getD i
          dummy_instr).fn = 0x5b
    rw [e]
    exact inv3_loop tbl code code.length 0 [] [] [] [] ⟨0, 0, 0, 0, 0⟩ (by omega) rfl
      (fun _ _ => rfl) (by simp)

theorem head_fn_pres (front tail tail2 : List instruction) (c : instruction)
    (hc : c.fn = 0x5b)
    (h : ((front ++ bb_instr :: tail).getD 0 dummy_instr).fn = 0x5b) :
    ((front ++ c :: tail2).getD 0 dummy_instr).fn = 0x5b := by
  cases front with
  | nil => simpa [hc] using hc
  | cons y ys => simpa using h

theorem head_fn_pres_close (front tail tailE : List instruction) (c : instruction)
    (hc : c.fn = 0x5b)
    (h : ((front ++ bb_instr :: tail).getD 0 dummy_instr).fn = 0x5b) :
    (((front ++ c :: tailE) ++ bb_instr :: []).getD 0 dummy_instr).fn = 0x5b := by
  have h2 : (front ++ c :: tailE) ++ bb_instr :: [] = front ++ c :: (tailE ++ [bb_instr]) := by
    simp
  rw [h2]
  exact head_fn_pres front tail (tailE ++ [bb_instr]) c hc h

theorem inv4_loop (tbl : op_table) (code : List Nat) : ∀ (fuel p : Nat)
    (front tail : List instruction) (offs tgts : List Int) (blk : block_analysis),
    code.length ≤ p + fuel →
    blk.begin_block_index = front.length →
    ((front ++ bb_instr :: tail).getD 0 dummy_instr).fn = 0x5b →
    (((analyze_finish (analyze_loop tbl code fuel p
        ⟨front ++ bb_instr :: tail, offs, tgts, blk⟩)).instrs.getD 0 dummy_instr).fn = 0x5b ∧
     2 ≤ (analyze_finish (analyze_loop tbl code fuel p
        ⟨front ++ bb_instr :: tail, offs, tgts, blk⟩)).instrs.length ∧
     (analyze_finish (analyze_loop tbl code fuel p
        ⟨front ++ bb_instr :: tail, offs, tgts, blk⟩)).instrs.getLast? = some stop_instr) := by
  intro fuel
  induction fuel with
  | zero =>
    intro p front tail offs tgts blk hf hbbi hhead
    rw [analyze_loop_of_ge tbl code 0 p _ (by omega)]
    refine ⟨?_, ?_, ?_⟩
    · rw [analyze_finish_fn _ _ (by simp)]
      exact hhead
    · rw [analyze_finish_length]
      simp [List.length_append]
      try omega
    · simp only [analyze_finish]
      exact List.getLast?_concat _
  | succ f ih =>
    intro p front tail offs tgts blk hf hbbi hhead
    by_cases hp : p < code.length
    case neg =>
      rw [analyze_loop_of_ge tbl code (f + 1) p _ (Nat.le_of_not_lt hp)]
      refine ⟨?_, ?_, ?_⟩
      · rw [analyze_finish_fn _ _ (by simp)]
        exact hhead
      · rw [analyze_finish_length]
        simp [List.length_append]
        try omega
      · simp only [analyze_finish]
        exact List.getLast?_concat _
    case pos =>
      rw [analyze_loop_succ tbl code f p _ hp]
      have hf1 : code.length ≤ next_pos code p + f := by
        have := succ_le_next_pos code p hp
        omega
      by_cases hop : code.getD p 0 = 0x5b
      · rw [analyze_step_jumpdest tbl code p front tail offs tgts blk hop hbbi]
        by_cases hcl : closes_block code (code.getD p 0) (next_pos code p)
        · rw [if_pos hcl]
          refine ih (next_pos code p) _ _ _ _ _ hf1 ?_ ?_
          · simp [List.length_append]
            try omega
          · exact head_fn_pres_close front tail tail
              ⟨0x5b, .block (acc_upd (tbl (code.getD p 0)) blk).close⟩ rfl hhead
        · rw [if_neg hcl]
          exact ih (next_pos code p) _ _ _ _ _ hf1 (by simpa [acc_upd] using hbbi) hhead
      · rw [analyze_step_op tbl code p front tail offs tgts blk hop hbbi]
        by_cases hcl : closes_block code (code.getD p 0) (next_pos code p)
        · rw [if_pos hcl]
          refine ih (next_pos code p) _ _ _ _ _ hf1 ?_ ?_
          · simp [List.length_append]
            try omega
          · exact head_fn_pres_close front tail
              (tail ++ [⟨code.getD p 0, (step_arg code p
                (acc_upd (tbl (code.getD p 0)) blk).gas_cost).getD default_arg⟩])
              ⟨0x5b, .block (acc_upd (tbl (code.getD p 0)) blk).close⟩ rfl hhead
        · rw [if_neg hcl]
          refine ih (next_pos code p) _ _ _ _ _ hf1 (by simpa [acc_upd] using hbbi) ?_
          exact head_fn_pres front tail
            (tail ++ [⟨code.getD p 0, (step_arg code p
              (acc_upd (tbl (code.getD p 0)) blk).gas_cost).getD default_arg⟩])
            bb_instr rfl hhead

/-- C10: for every opcode table (hence every revision) and every code,
including the empty one, the analysis has at least two instruction entries,
the entry at index 0 carries the BEGINBLOCK handler (so the executor's
initial access to instrs[0] is in bounds), the final entry is the safety
STOP, and every jumpdest target is a valid index strictly below the
instruction count. -/
theorem c10_instrs_bounds (tbl : op_table) (code : List Nat) :
    2 ≤ (analyze tbl code).instrs.length ∧
    ((analyze tbl code).instrs.getD 0 dummy_instr).fn = 0x5b ∧
    (analyze tbl code).instrs.getLast? = some stop_instr ∧
    ∀ t ∈ (analyze tbl code).jumpdest_targets,
      0 ≤ t ∧ t < ((analyze tbl code).instrs.length : Int) := by
  have e : init_state = ⟨[] ++ bb_instr :: [], [], [], ⟨0, 0, 0, 0, 0⟩⟩ := rfl
  have h4 := inv4_loop tbl code code.length 0 [] [] [] [] ⟨0, 0, 0, 0, 0⟩ (by omega) rfl
    (by simp [bb_instr])
  have h3 := inv3_loop tbl code code.length 0 [] [] [] [] ⟨0, 0, 0, 0, 0⟩ (by omega) rfl
    (fun _ _ => rfl) (by simp)
  refine ⟨?_, ?_, ?_, ?_⟩
  · show 2 ≤ (analyze_finish (analyze_loop tbl code code.length 0 init_state)).instrs.length
    rw [e]
    exact h4.2.1
  · show ((analyze_finish (analyze_loop tbl code code.length 0
        init_state)).instrs.getD 0 dummy_instr).fn = 0x5b
    rw [e]
    exact h4.1
  · show (analyze_finish (analyze_loop tbl code code.length 0 init_state)).instrs.getLast?
      = some stop_instr
    rw [e]
    exact h4.2.2
  · show ∀ t ∈ (analyze_finish (analyze_loop tbl code code.length 0
        init_state)).jumpdest_targets, 0 ≤ t ∧
        t < ((analyze_finish (analyze_loop tbl code code.length 0 init_state)).instrs.length : Int)
    rw [e]
    intro t ht
    obtain ⟨i, hti, hilen, _⟩ := h3 t ht
    subst hti
    constructor
    · exact_mod_cast Nat.zero_le i
    · exact_mod_cast hilen

theorem op_positions_of_ge (code : List Nat) (fuel p : Nat) (h : code.length ≤ p) :
    op_positions code fuel p = [] := by
  cases fuel <;> simp [op_positions, Nat.not_lt.mpr h]

theorem op_positions_succ (code : List Nat) (fuel p : Nat) (h : p < code.length) :
    op_positions code (fuel + 1) p = p :: op_positions code fuel (next_pos code p) := by
  simp [op_positions, h]

theorem op_positions_lt (code : List Nat) : ∀ (fuel p q : Nat),
    q ∈ op_positions code fuel p → q < code.length := by
  intro fuel
  induction fuel with
  | zero =>
    intro p q hq
    simp [op_positions] at hq
  | succ f ih =>
    intro p q hq
    by_cases hp : p < code.length
    · rw [op_positions_succ code f p hp] at hq
      rcases List.mem_cons.mp hq with hq | hq
      · subst hq
        exact hp
      · exact ih (next_pos code p) q hq
    · rw [op_positions_of_ge code (f + 1) p (Nat.le_of_not_lt hp)] at hq
      simp at hq

theorem offs_loop (tbl : op_table) (code : List Nat) : ∀ (fuel p : Nat)
    (front tail : List instruction) (offs tgts : List Int) (blk : block_analysis),
    blk.begin_block_index = front.length →
    (analyze_finish (analyze_loop tbl code fuel p
        ⟨front ++ bb_instr :: tail, offs, tgts, blk⟩)).jumpdest_offsets
      = offs ++ ((op_positions code fuel p).filter
          (fun q => decide (code.getD q 0 = 0x5b))).map Int.ofNat := by
  intro fuel
  induction fuel with
  | zero =>
    intro p front tail offs tgts blk hbbi
    simp [analyze_loop, op_positions, analyze_finish]
  | succ f ih =>
    intro p front tail offs tgts blk hbbi
    by_cases hp : p < code.length
    case neg =>
      rw [analyze_loop_of_ge tbl code (f + 1) p _ (Nat.le_of_not_lt hp)]
      rw [op_positions_of_ge code (f + 1) p (Nat.le_of_not_lt hp)]
      simp [analyze_finish]
    case pos =>
      rw [analyze_loop_succ tbl code f p _ hp]
      rw [op_positions_succ code f p hp]
      by_cases hop : code.getD p 0 = 0x5b
      · rw [analyze_step_jumpdest tbl code p front tail offs tgts blk hop hbbi]
        by_cases hcl : closes_block code (code.getD p 0) (next_pos code p)
        · rw [if_pos hcl]
          rw [ih (next_pos code p) _ _ _ _ _ (by simp [List.length_append]; try omega)]
          rw [List.filter_cons_of_pos (by simpa using hop)]
          simp
        · rw [if_neg hcl]
          rw [ih (next_pos code p) _ _ _ _ _ (by simpa [acc_upd] using hbbi)]
          rw [List.filter_cons_of_pos (by simpa using hop)]
          simp
      · rw [analyze_step_op tbl code p front tail offs tgts blk hop hbbi]
        by_cases hcl : closes_block code (code.getD p 0) (next_pos code p)
        · rw [if_pos hcl]
          rw [ih (next_pos code p) _ _ _ _ _ (by simp [List.length_append]; try omega)]
          rw [List.filter_cons_of_neg (by simpa using hop)]
        · rw [if_neg hcl]
          rw [ih (next_pos code p) _ _ _ _ _ (by simpa [acc_upd] using hbbi)]
          rw [List.filter_cons_of_neg (by simpa using hop)]

/-- C5: for every opcode table and every code in which no JUMPDEST byte
lies inside a PUSH immediate (every 0x5b byte is at an opcode offset), a
byte offset appears in the jumpdest offsets of the analysis exactly when
the code holds the JUMPDEST opcode at that offset. -/
theorem c5_jumpdest_roundtrip (tbl : op_table) (code : List Nat)
    (hno : ∀ q, q < code.length → code.getD q 0 = 0x5b → q ∈ op_positions_all code) :
    ∀ q : Nat, ((q : Int) ∈ (analyze tbl code).jumpdest_offsets ↔
      (q < code.length ∧ code.getD q 0 = 0x5b)) := by
  have e : init_state = ⟨[] ++ bb_instr :: [], [], [], ⟨0, 0, 0, 0, 0⟩⟩ := rfl
  have hoffs : (analyze tbl code).jumpdest_offsets
      = ((op_positions_all code).filter
          (fun q => decide (code.getD q 0 = 0x5b))).map Int.ofNat := by
    show (analyze_finish (analyze_loop tbl code code.length 0 init_state)).jumpdest_offsets = _
    rw [e]
    have h := offs_loop tbl code code.length 0 [] [] [] [] ⟨0, 0, 0, 0, 0⟩ rfl
    rw [h]
    simp [op_positions_all]
  intro q
  rw [hoffs]
  constructor
  · intro hq
    obtain ⟨a, ha, hcast⟩ := List.mem_map.mp hq
    have haq : a = q := by
      have : (a : Int) = (q : Int) := hcast
      exact_mod_cast this
    subst haq
    have h1 := List.mem_filter.mp ha
    refine ⟨op_positions_lt code code.length 0 a h1.1, by simpa using h1.2⟩
  · intro hq
    refine List.mem_map.mpr ⟨q, List.mem_filter.mpr ⟨hno q hq.1 hq.2, by simpa using hq.2⟩, rfl⟩

/-- C5 (witness): code [JUMPDEST, STOP] has no PUSH at all, and offset 0 is
reported as a jumpdest while offset 1 is not. -/
theorem c5_jumpdest_roundtrip_witness :
    (∀ q, q < ([0x5b, 0x00] : List Nat).length → ([0x5b, 0x00] : List Nat).getD q 0 = 0x5b →
      q ∈ op_positions_all [0x5b, 0x00]) ∧
    ((0 : Int) ∈ (analyze table_ex [0x5b, 0x00]).jumpdest_offsets ↔
      (0 < ([0x5b, 0x00] : List Nat).length ∧ ([0x5b, 0x00] : List Nat).getD 0 0 = 0x5b)) :=
  ⟨by decide, c5_jumpdest_roundtrip table_ex [0x5b, 0x00] (by decide) 0⟩

theorem spec_ga_ge (tbl : op_table) (code : List Nat) (fuel p acc : Nat)
    (hp : code.length ≤ p) : spec_gas_args tbl code fuel p acc = [] := by
  cases fuel <;> simp [spec_gas_args, Nat.not_lt.mpr hp]

theorem spec_ga_succ (tbl : op_table) (code : List Nat) (f p acc : Nat)
    (hp : p < code.length) :
    spec_gas_args tbl code (f + 1) p acc =
      (if is_gas_family (code.getD p 0) then
        [(code.getD p 0, instruction_argument.number
          ((acc + (tbl (code.getD p 0)).gas_cost : Nat) : Int))]
      else []) ++
      spec_gas_args tbl code f (next_pos code p)
        (if closes_block code (code.getD p 0) (next_pos code p) then 0
         else acc + (tbl (code.getD p 0)).gas_cost) := by
  simp only [spec_gas_args, if_pos hp]
  by_cases hf : is_gas_family (code.getD p 0)
  · rw [if_pos hf, if_pos hf]
    simp
  · rw [if_neg hf, if_neg hf]
    simp

theorem gas_arg_list_append (l1 l2 : List instruction) :
    gas_arg_list (l1 ++ l2) = gas_arg_list l1 ++ gas_arg_list l2 := by
  simp [gas_arg_list]

theorem not_gas_family_bb : ¬ is_gas_family 0x5b := by decide

theorem not_gas_family_stop : ¬ is_gas_family 0x00 := by decide

theorem gas_shape_plain (front tail : List instruction) :
    gas_arg_list (front ++ bb_instr :: tail) = gas_arg_list front ++ gas_arg_list tail := by
  simp [gas_arg_list, bb_instr, not_gas_family_bb]

theorem gas_shape_close (front tailE : List instruction) (a : instruction_argument) :
    gas_arg_list ((front ++ (⟨0x5b, a⟩ : instruction) :: tailE) ++ bb_instr :: [])
      = gas_arg_list front ++ gas_arg_list tailE := by
  simp [gas_arg_list, bb_instr, not_gas_family_bb]

theorem gas_single (fnv : Nat) (a : instruction_argument) :
    gas_arg_list [⟨fnv, a⟩] = if is_gas_family fnv then [(fnv, a)] else [] := by
  by_cases h : is_gas_family fnv <;> simp [gas_arg_list, h]

theorem gas_finish (front tail : List instruction) (offs tgts : List Int)
    (blk : block_analysis) (hbbi : blk.begin_block_index = front.length) :
    gas_arg_list (analyze_finish ⟨front ++ bb_instr :: tail, offs, tgts, blk⟩).instrs
      = gas_arg_list (front ++ bb_instr :: tail) := by
  simp only [analyze_finish, hbbi, set_arg_at_append_cons]
  simp [gas_arg_list, bb_instr, not_gas_family_bb, not_gas_family_stop]

theorem c6_gas_loop (tbl : op_table) (code : List Nat) : ∀ (fuel p : Nat)
    (front tail : List instruction) (offs tgts : List Int) (blk : block_analysis),
    code.length ≤ p + fuel →
    blk.begin_block_index = front.length →
    gas_arg_list (analyze_finish (analyze_loop tbl code fuel p
        ⟨front ++ bb_instr :: tail, offs, tgts, blk⟩)).instrs
      = gas_arg_list (front ++ bb_instr :: tail) ++ spec_gas_args tbl code fuel p blk.gas_cost := by
  intro fuel
  induction fuel with
  | zero =>
    intro p front tail offs tgts blk hf hbbi
    rw [analyze_loop_of_ge tbl code 0 p _ (by omega)]
    rw [gas_finish front tail offs tgts blk hbbi]
    rw [spec_ga_ge tbl code 0 p _ (by omega)]
    simp
  | succ f ih =>
    intro p front tail offs tgts blk hf hbbi
    by_cases hp : p < code.length
    case neg =>
      rw [analyze_loop_of_ge tbl code (f + 1) p _ (Nat.le_of_not_lt hp)]
      rw [gas_finish front tail offs tgts blk hbbi]
      rw [spec_ga_ge tbl code (f + 1) p _ (Nat.le_of_not_lt hp)]
      simp
    case pos =>
      rw [analyze_loop_succ tbl code f p _ hp]
      have hf1 : code.length ≤ next_pos code p + f := by
        have := succ_le_next_pos code p hp
        omega
      rw [spec_ga_succ tbl code f p _ hp]
      by_cases hop : code.getD p 0 = 0x5b
      · have hfam : ¬ is_gas_family (code.getD p 0) := by
          rw [hop]
          exact not_gas_family_bb
        rw [if_neg hfam]
        rw [analyze_step_jumpdest tbl code p front tail offs tgts blk hop hbbi]
        by_cases hcl : closes_block code (code.getD p 0) (next_pos code p)
        · rw [if_pos hcl, if_pos hcl]
          refine (ih (next_pos code p) _ _ _ _ _ hf1 ?_).trans ?_
          · simp [List.length_append]
            try omega
          rw [gas_shape_close, gas_shape_plain]
          simp
        · rw [if_neg hcl, if_neg hcl]
          refine (ih (next_pos code p) _ _ _ _ _ hf1 ?_).trans ?_
          · simpa [acc_upd] using hbbi
          simp [acc_upd]
      · rw [analyze_step_op tbl code p front tail offs tgts blk hop hbbi]
        by_cases hcl : closes_block code (code.getD p 0) (next_pos code p)
        · rw [if_pos hcl, if_pos hcl]
          refine (ih (next_pos code p) _ _ _ _ _ hf1 ?_).trans ?_
          · simp [List.length_append]
            try omega
          rw [gas_shape_close, gas_arg_list_append, gas_shape_plain, gas_single]
          by_cases hfam : is_gas_family (code.getD p 0)
          · rw [if_pos hfam, if_pos hfam]
            rw [step_arg_gas_family code p _ hfam]
            simp [acc_upd]
          · rw [if_neg hfam, if_neg hfam]
            simp
        · rw [if_neg hcl, if_neg hcl]
          refine (ih (next_pos code p) _ _ _ _ _ hf1 ?_).trans ?_
          · simpa [acc_upd] using hbbi
          rw [gas_shape_plain, gas_arg_list_append, gas_shape_plain, gas_single]
          by_cases hfam : is_gas_family (code.getD p 0)
          · rw [if_pos hfam, if_pos hfam]
            rw [step_arg_gas_family code p _ hfam]
            simp [acc_upd]
          · rw [if_neg hfam, if_neg hfam]
            simp [acc_upd]

theorem spec_pc_ge (code : List Nat) (fuel p : Nat) (hp : code.length ≤ p) :
    spec_pc_args code fuel p = [] := by
  cases fuel <;> simp [spec_pc_args, Nat.not_lt.mpr hp]

theorem spec_pc_succ (code : List Nat) (f p : Nat) (hp : p < code.length) :
    spec_pc_args code (f + 1) p =
      (if code.getD p 0 = 0x58 then [(p : Int)] else []) ++
        spec_pc_args code f (next_pos code p) := by
  simp only [spec_pc_args, if_pos hp]
  by_cases hf : code.getD p 0 = 0x58
  · rw [if_pos hf, if_pos hf]
    simp
  · rw [if_neg hf, if_neg hf]
    simp

theorem pc_arg_list_append (l1 l2 : List instruction) :
    pc_arg_list (l1 ++ l2) = pc_arg_list l1 ++ pc_arg_list l2 := by
  simp [pc_arg_list]

theorem pc_shape_plain (front tail : List instruction) :
    pc_arg_list (front ++ bb_instr :: tail) = pc_arg_list front ++ pc_arg_list tail := by
  simp [pc_arg_list, bb_instr]

theorem pc_shape_close (front tailE : List instruction) (a : instruction_argument) :
    pc_arg_list ((front ++ (⟨0x5b, a⟩ : instruction) :: tailE) ++ bb_instr :: [])
      = pc_arg_list front ++ pc_arg_list tailE := by
  simp [pc_arg_list, bb_instr]

theorem pc_single (fnv : Nat) (a : instruction_argument) :
    pc_arg_list [⟨fnv, a⟩] = if fnv = 0x58 then [a] else [] := by
  by_cases h : fnv = 0x58 <;> simp [pc_arg_list, h]

theorem pc_finish (front tail : List instruction) (offs tgts : List Int)
    (blk : block_analysis) (hbbi : blk.begin_block_index = front.length) :
    pc_arg_list (analyze_finish ⟨front ++ bb_instr :: tail, offs, tgts, blk⟩).instrs
      = pc_arg_list (front ++ bb_instr :: tail) := by
  simp only [analyze_finish, hbbi, set_arg_at_append_cons]
  simp [pc_arg_list, bb_instr]

theorem c6_pc_loop (tbl : op_table) (code : List Nat) : ∀ (fuel p : Nat)
    (front tail : List instruction) (offs tgts : List Int) (blk : block_analysis),
    code.length ≤ p + fuel →
    blk.begin_block_index = front.length →
    pc_arg_list (analyze_finish (analyze_loop tbl code fuel p
        ⟨front ++ bb_instr :: tail, offs, tgts, blk⟩)).instrs
      = pc_arg_list (front ++ bb_instr :: tail) ++
        (spec_pc_args code fuel p).map (fun n => instruction_argument.number n) := by
  intro fuel
  induction fuel with
  | zero =>
    intro p front tail offs tgts blk hf hbbi
    rw [analyze_loop_of_ge tbl code 0 p _ (by omega)]
    rw [pc_finish front tail offs tgts blk hbbi]
    rw [spec_pc_ge code 0 p (by omega)]
    simp
  | succ f ih =>
    intro p front tail offs tgts blk hf hbbi
    by_cases hp : p < code.length
    case neg =>
      rw [analyze_loop_of_ge tbl code (f + 1) p _ (Nat.le_of_not_lt hp)]
      rw [pc_finish front tail offs tgts blk hbbi]
      rw [spec_pc_ge code (f + 1) p (Nat.le_of_not_lt hp)]
      simp
    case pos =>
      rw [analyze_loop_succ tbl code f p _ hp]
      have hf1 : code.length ≤ next_pos code p + f := by
        have := succ_le_next_pos code p hp
        omega
      rw [spec_pc_succ code f p hp]
      by_cases hop : code.getD p 0 = 0x5b
      · have hpc : ¬ code.getD p 0 = 0x58 := by
          rw [hop]
          decide
        rw [if_neg hpc]
        rw [analyze_step_jumpdest tbl code p front tail offs tgts blk hop hbbi]
        by_cases hcl : closes_block code (code.getD p 0) (next_pos code p)
        · rw [if_pos hcl]
          refine (ih (next_pos code p) _ _ _ _ _ hf1 ?_).trans ?_
          · simp [List.length_append]
            try omega
          rw [pc_shape_close, pc_shape_plain]
          simp
        · rw [if_neg hcl]
          refine (ih (next_pos code p) _ _ _ _ _ hf1 ?_).trans ?_
          · simpa [acc_upd] using hbbi
          simp
      · rw [analyze_step_op tbl code p front tail offs tgts blk hop hbbi]
        by_cases hcl : closes_block code (code.getD p 0) (next_pos code p)
        · rw [if_pos hcl]
          refine (ih (next_pos code p) _ _ _ _ _ hf1 ?_).trans ?_
          · simp [List.length_append]
            try omega
          rw [pc_shape_close, pc_arg_list_append, pc_shape_plain, pc_single]
          by_cases hpc : code.getD p 0 = 0x58
          · rw [if_pos hpc, if_pos hpc]
            rw [step_arg_pc code p _ hpc]
            simp
          · rw [if_neg hpc, if_neg hpc]
            simp
        · rw [if_neg hcl]
          refine (ih (next_pos code p) _ _ _ _ _ hf1 ?_).trans ?_
          · simpa [acc_upd] using hbbi
          rw [pc_shape_plain, pc_arg_list_append, pc_shape_plain, pc_single]
          by_cases hpc : code.getD p 0 = 0x58
          · rw [if_pos hpc, if_pos hpc]
            rw [step_arg_pc code p _ hpc]
            simp
          · rw [if_neg hpc, if_neg hpc]
            simp

/-- C6: for every opcode table and every code, the instructions emitted for
GAS, CALL, CALLCODE, DELEGATECALL, STATICCALL, CREATE, CREATE2 and SSTORE
carry, in order, exactly the cumulative block base gas cost up to and
including themselves as their number argument, and the instructions emitted
for PC carry exactly their own code offset. -/
theorem c6_gas_pc_args (tbl : op_table) (code : List Nat) :
    gas_arg_list (analyze tbl code).instrs = spec_gas_args tbl code code.length 0 0 ∧
    pc_arg_list (analyze tbl code).instrs
      = (spec_pc_args code code.length 0).map (fun n => instruction_argument.number n) := by
  have e : init_state = ⟨[] ++ bb_instr :: [], [], [], ⟨0, 0, 0, 0, 0⟩⟩ := rfl
  constructor
  · show gas_arg_list (analyze_finish (analyze_loop tbl code code.length 0 init_state)).instrs = _
    rw [e]
    rw [c6_gas_loop tbl code code.length 0 [] [] [] [] ⟨0, 0, 0, 0, 0⟩ (by omega) rfl]
    rw [gas_shape_plain]
    simp [gas_arg_list]
  · show pc_arg_list (analyze_finish (analyze_loop tbl code code.length 0 init_state)).instrs = _
    rw [e]
    rw [c6_pc_loop tbl code code.length 0 [] [] [] [] ⟨0, 0, 0, 0, 0⟩ (by omega) rfl]
    rw [pc_shape_plain]
    simp [pc_arg_list]

theorem lor_mul_pow : ∀ (k c b : Nat), b < 2 ^ k → (c * 2 ^ k) ||| b = c * 2 ^ k + b := by
  intro k
  induction k with
  | zero =>
    intro c b hb
    have : b = 0 := by omega
    subst this
    simp
  | succ k ih =>
    intro c b hb
    have hdecomp : b = Nat.bit (Nat.bodd b) (Nat.div2 b) := (Nat.bit_decomp b).symm
    have hc : c * 2 ^ (k + 1) = Nat.bit false (c * 2 ^ k) := by
      simp [Nat.bit]
      ring
    have hdiv : Nat.div2 b < 2 ^ k := by
      rw [Nat.div2_val]
      have h2 : 2 ^ (k + 1) = 2 ^ k * 2 := by ring
      omega
    have hb2 := Nat.bodd_add_div2 b
    rw [hdecomp, hc, Nat.lor_bit, ih c (Nat.div2 b) hdiv]
    cases hx : Nat.bodd b <;> rw [hx] at hb2 <;> simp [Nat.bit] at hb2 ⊢ <;> omega

/-- Spec-side description of the big-endian immediate value (spec section
4.2, step 4): the first available byte sits at the highest-order position
`(n-1)*8`, each following byte eight bits lower, and the missing low-order
bytes contribute zero. -/
def spec_push_value : List Nat → Nat → Nat
  | [], _ => 0
  | b :: bs, n => b * 2 ^ ((n - 1) * 8) + spec_push_value bs (n - 1)

theorem spec_push_value_lt : ∀ (bytes : List Nat) (n : Nat),
    (∀ b ∈ bytes, b < 256) → bytes.length ≤ n →
    spec_push_value bytes n < 2 ^ (n * 8) := by
  intro bytes
  induction bytes with
  | nil =>
    intro n _ _
    simp [spec_push_value]
  | cons b bs ih =>
    intro n hb hlen
    have hn : 1 ≤ n := by
      simp at hlen
      omega
    have hbs := ih (n - 1) (fun x hx => hb x (List.mem_cons_of_mem b hx))
      (by simp at hlen; omega)
    have hb0 : b < 256 := hb b (List.mem_cons_self b bs)
    have hpow : 2 ^ (n * 8) = 256 * 2 ^ ((n - 1) * 8) := by
      have : n * 8 = (n - 1) * 8 + 8 := by omega
      rw [this, pow_add]
      ring
    simp only [spec_push_value]
    rw [hpow]
    have h1 : b * 2 ^ ((n - 1) * 8) ≤ 255 * 2 ^ ((n - 1) * 8) :=
      Nat.mul_le_mul_right _ (by omega)
    omega

theorem read_push_eq_spec : ∀ (bytes : List Nat) (n : Nat),
    (∀ b ∈ bytes, b < 256) → bytes.length ≤ n →
    read_push bytes n = spec_push_value bytes n := by
  intro bytes
  induction bytes with
  | nil =>
    intro n _ _
    rfl
  | cons b bs ih =>
    intro n hb hlen
    have hbs : read_push bs (n - 1) = spec_push_value bs (n - 1) :=
      ih (n - 1) (fun x hx => hb x (List.mem_cons_of_mem b hx)) (by simp at hlen; omega)
    have hlt : spec_push_value bs (n - 1) < 2 ^ ((n - 1) * 8) := by
      have := spec_push_value_lt bs (n - 1)
        (fun x hx => hb x (List.mem_cons_of_mem b hx)) (by simp at hlen; omega)
      simpa [Nat.mul_comm] using this
    simp only [read_push, spec_push_value, hbs]
    rw [Nat.shiftLeft_eq]
    exact lor_mul_pow ((n - 1) * 8) b (spec_push_value bs (n - 1)) hlt

theorem step_arg_small_push (code : List Nat) (p g : Nat)
    (h : is_small_push (code.getD p 0)) :
    step_arg code p g = some (.small_push_value
      (read_push ((code.drop (p + 1)).take (code.getD p 0 - 0x5f))
        (code.getD p 0 - 0x5f))) := by
  unfold step_arg
  rw [if_pos h]

theorem small_push_not_term (op : Nat) (h : is_small_push op) : ¬ is_terminator op := by
  obtain ⟨h1, h2⟩ := h
  unfold is_terminator
  omega

theorem small_push_ne_jumpdest (op : Nat) (h : is_small_push op) : op ≠ 0x5b := by
  obtain ⟨h1, h2⟩ := h
  omega

theorem small_push_imm (op : Nat) (h : is_small_push op) : imm_size op = op - 0x5f := by
  obtain ⟨h1, h2⟩ := h
  unfold imm_size
  rw [if_pos ⟨by omega, by omega⟩]

theorem finish_last_but_one (front tailM : List instruction) (x : instruction)
    (offs tgts : List Int) (blk : block_analysis)
    (hbbi : blk.begin_block_index = front.length) :
    (analyze_finish ⟨front ++ bb_instr :: (tailM ++ [x]), offs, tgts, blk⟩).instrs.getD
      ((analyze_finish ⟨front ++ bb_instr :: (tailM ++ [x]), offs, tgts,
        blk⟩).instrs.length - 2) dummy_instr = x := by
  simp only [analyze_finish, hbbi, set_arg_at_append_cons]
  have hL : (front ++ (⟨bb_instr.fn, .block blk.close⟩ : instruction) :: (tailM ++ [x])) ++
      [(⟨0x00, default_arg⟩ : instruction)] =
      (front ++ ⟨bb_instr.fn, .block blk.close⟩ :: tailM) ++
        x :: [⟨0x00, default_arg⟩] := by
    simp
  rw [hL]
  have hlen2 : ((front ++ (⟨bb_instr.fn, .block blk.close⟩ : instruction) :: tailM) ++
      x :: [(⟨0x00, default_arg⟩ : instruction)]).length - 2 =
      (front ++ (⟨bb_instr.fn, .block blk.close⟩ : instruction) :: tailM).length := by
    simp
    omega
  rw [hlen2]
  exact getD_at_split _ x _

theorem c7_loop (tbl : op_table) (code : List Nat) (q : Nat)
    (hsp : is_small_push (code.getD q 0))
    (htr : code.length < q + 1 + (code.getD q 0 - 0x5f)) : ∀ (fuel p : Nat)
    (front tail : List instruction) (offs tgts : List Int) (blk : block_analysis),
    code.length ≤ p + fuel →
    blk.begin_block_index = front.length →
    q ∈ op_positions code fuel p →
    (analyze_finish (analyze_loop tbl code fuel p
        ⟨front ++ bb_instr :: tail, offs, tgts, blk⟩)).instrs.getD
      ((analyze_finish (analyze_loop tbl code fuel p
        ⟨front ++ bb_instr :: tail, offs, tgts, blk⟩)).instrs.length - 2) dummy_instr
      = ⟨code.getD q 0, .small_push_value
          (read_push ((code.drop (q + 1)).take (code.getD q 0 - 0x5f))
            (code.getD q 0 - 0x5f))⟩ := by
  intro fuel
  induction fuel with
  | zero =>
    intro p front tail offs tgts blk hf hbbi hq
    simp [op_positions] at hq
  | succ f ih =>
    intro p front tail offs tgts blk hf hbbi hq
    have hp : p < code.length := by
      by_cases hp : p < code.length
      · exact hp
      · rw [op_positions_of_ge code (f + 1) p (Nat.le_of_not_lt hp)] at hq
        simp at hq
    rw [op_positions_succ code f p hp] at hq
    have hf1 : code.length ≤ next_pos code p + f := by
      have := succ_le_next_pos code p hp
      omega
    rw [analyze_loop_succ tbl code f p _ hp]
    rcases List.mem_cons.mp hq with hqp | hqrest
    · subst hqp
      have hop : code.getD q 0 ≠ 0x5b := small_push_ne_jumpdest _ hsp
      have hnext : next_pos code q = code.length := by
        unfold next_pos
        rw [small_push_imm _ hsp]
        omega
      have hncl : ¬ closes_block code (code.getD q 0) (next_pos code q) := by
        intro hcl
        rcases hcl with hterm | ⟨hne, _⟩
        · exact small_push_not_term _ hsp hterm
        · exact hne hnext
      rw [analyze_step_op tbl code q front tail offs tgts blk hop hbbi]
      rw [if_neg hncl]
      rw [hnext]
      rw [analyze_loop_of_ge tbl code f code.length _ (Nat.le_refl _)]
      rw [step_arg_small_push code q _ hsp]
      exact finish_last_but_one front tail _ offs tgts _ (by simpa [acc_upd] using hbbi)
    · by_cases hop : code.getD p 0 = 0x5b
      · rw [analyze_step_jumpdest tbl code p front tail offs tgts blk hop hbbi]
        by_cases hcl : closes_block code (code.getD p 0) (next_pos code p)
        · rw [if_pos hcl]
          exact ih (next_pos code p) _ _ _ _ _ hf1
            (by simp [List.length_append]; try omega) hqrest
        · rw [if_neg hcl]
          exact ih (next_pos code p) _ _ _ _ _ hf1 (by simpa [acc_upd] using hbbi) hqrest
      · rw [analyze_step_op tbl code p front tail offs tgts blk hop hbbi]
        by_cases hcl : closes_block code (code.getD p 0) (next_pos code p)
        · rw [if_pos hcl]
          exact ih (next_pos code p) _ _ _ _ _ hf1
            (by simp [List.length_append]; try omega) hqrest
        · rw [if_neg hcl]
          exact ih (next_pos code p) _ _ _ _ _ hf1 (by simpa [acc_upd] using hbbi) hqrest

/-- C7: for every opcode table, byte-valued code and opcode offset holding
a small PUSH (PUSH1..PUSH8) whose immediate extends past the code end,
`analyze` does not fail (it is total) and the instruction emitted for that
PUSH — the last entry before the trailing safety STOP — carries the
big-endian value of the bytes available before the code end, placed in the
high-order positions with the missing low-order bytes equal to zero. -/
theorem c7_truncated_small_push (tbl : op_table) (code : List Nat) (q : Nat)
    (hbytes : ∀ b ∈ code, b < 256)
    (hq : q ∈ op_positions_all code)
    (hsp : is_small_push (code.getD q 0))
    (htr : code.length < q + 1 + (code.getD q 0 - 0x5f)) :
    (analyze tbl code).instrs.getD ((analyze tbl code).instrs.length - 2) dummy_instr
      = ⟨code.getD q 0, .small_push_value
          (spec_push_value ((code.drop (q + 1)).take (code.getD q 0 - 0x5f))
            (code.getD q 0 - 0x5f))⟩ := by
  have e : init_state = ⟨[] ++ bb_instr :: [], [], [], ⟨0, 0, 0, 0, 0⟩⟩ := rfl
  have hconv : read_push ((code.drop (q + 1)).take (code.getD q 0 - 0x5f))
      (code.getD q 0 - 0x5f) =
      spec_push_value ((code.drop (q + 1)).take (code.getD q 0 - 0x5f))
        (code.getD q 0 - 0x5f) := by
    refine read_push_eq_spec _ _ ?_ ?_
    · intro b hb
      exact hbytes b (List.mem_of_mem_drop (List.mem_of_mem_take hb))
    · exact le_trans (List.length_take_le _ _) (le_refl _)
  have h := c7_loop tbl code q hsp htr code.length 0 [] [] [] [] ⟨0, 0, 0, 0, 0⟩
    (by omega) rfl hq
  rw [hconv] at h
  show (analyze_finish (analyze_loop tbl code code.length 0 init_state)).instrs.getD
    ((analyze_finish (analyze_loop tbl code code.length 0 init_state)).instrs.length - 2)
    dummy_instr = _
  rw [e]
  exact h

/-- C7 (witness): the two-byte code [PUSH2, 0xAB] ends in a truncated
PUSH2; the decoded immediate is 0xAB00. -/
theorem c7_truncated_small_push_witness :
    (∀ b ∈ ([0x61, 0xab] : List Nat), b < 256) ∧
    0 ∈ op_positions_all [0x61, 0xab] ∧
    is_small_push (([0x61, 0xab] : List Nat).getD 0 0) ∧
    ([0x61, 0xab] : List Nat).length < 0 + 1 + (([0x61, 0xab] : List Nat).getD 0 0 - 0x5f) ∧
    (analyze table_ex [0x61, 0xab]).instrs.getD
      ((analyze table_ex [0x61, 0xab]).instrs.length - 2) dummy_instr
      = ⟨0x61, .small_push_value 0xab00⟩ := by
  refine ⟨by decide, by decide, by decide, by decide, ?_⟩
  have h := c7_truncated_small_push table_ex [0x61, 0xab] 0 (by decide) (by decide)
    (by decide) (by decide)
  rw [h]
  decide

theorem getD_mem_int (l : List Int) (n : Nat) (d : Int) (h : n < l.length) :
    l.getD n d ∈ l := by
  rw [List.getD_eq_getElem l d h]
  exact List.getElem_mem h

theorem findIdx_lower_bound (l : List Int) (hl : List.Pairwise (· < ·) l) :
    ∀ i : Nat, i < l.length →
    l.findIdx (fun x => decide (l.getD i 0 ≤ x)) = i := by
  induction l with
  | nil =>
    intro i hi
    simp at hi
  | cons a rest ih =>
    intro i hi
    cases i with
    | zero =>
      simp [List.findIdx_cons]
    | succ i =>
      have hrest : i < rest.length := by
        simp at hi
        omega
      have hv : (a :: rest).getD (i + 1) 0 = rest.getD i 0 := rfl
      have hmem : rest.getD i 0 ∈ rest := getD_mem_int rest i 0 hrest
      have hlt : a < rest.getD i 0 := (List.pairwise_cons.mp hl).1 _ hmem
      have hpred : decide (rest.getD i 0 ≤ a) = false :=
        decide_eq_false (by omega)
      simp only [List.findIdx_cons, hpred, cond_false, hv]
      rw [ih (List.pairwise_cons.mp hl).2 i hrest]

theorem find_jumpdest_hit (a : code_analysis)
    (hpw : List.Pairwise (· < ·) a.jumpdest_offsets)
    (i : Nat) (hi : i < a.jumpdest_offsets.length) :
    find_jumpdest a (a.jumpdest_offsets.getD i 0) = a.jumpdest_targets.getD i (-1) := by
  simp only [find_jumpdest]
  rw [findIdx_lower_bound a.jumpdest_offsets hpw i hi]
  rw [if_pos hi, if_pos rfl]

theorem find_jumpdest_miss (a : code_analysis) (off : Int)
    (hmem : off ∉ a.jumpdest_offsets) : find_jumpdest a off = -1 := by
  simp only [find_jumpdest]
  by_cases hidx : (a.jumpdest_offsets.findIdx fun x => decide (off ≤ x)) <
      a.jumpdest_offsets.length
  · rw [if_pos hidx]
    have hm : a.jumpdest_offsets.getD
        (a.jumpdest_offsets.findIdx fun x => decide (off ≤ x)) 0 ∈ a.jumpdest_offsets :=
      getD_mem_int _ _ _ hidx
    refine if_neg (fun heq => hmem ?_)
    rw [← heq]
    exact hm
  · rw [if_neg hidx]

/-- C8: for every opcode table and code, looking up the i-th jumpdest
offset in the analysis returns the i-th jumpdest target, and looking up any
offset that is not a jumpdest offset returns the miss value −1, which the
JUMP/JUMPI dispatch turns into BAD_JUMP_DESTINATION. -/
theorem c8_find_jumpdest (tbl : op_table) (code : List Nat) :
    (∀ i : Nat, i < (analyze tbl code).jumpdest_offsets.length →
      find_jumpdest (analyze tbl code) ((analyze tbl code).jumpdest_offsets.getD i 0)
        = (analyze tbl code).jumpdest_targets.getD i (-1)) ∧
    (∀ off : Int, off ∉ (analyze tbl code).jumpdest_offsets →
      find_jumpdest (analyze tbl code) off = -1 ∧
      jump_dispatch (analyze tbl code) off = .error .bad_jump_destination) := by
  have e : init_state = ⟨[] ++ bb_instr :: [], [], [], ⟨0, 0, 0, 0, 0⟩⟩ := rfl
  have hpw : List.Pairwise (· < ·) (analyze tbl code).jumpdest_offsets := by
    show List.Pairwise (· < ·)
      (analyze_finish (analyze_loop tbl code code.length 0 init_state)).jumpdest_offsets
    rw [e]
    exact inv1_loop tbl code code.length 0 [] [] [] [] ⟨0, 0, 0, 0, 0⟩ (by omega) rfl
      (by simp) (by simp)
  refine ⟨fun i hi => find_jumpdest_hit _ hpw i hi, fun off hoff => ?_⟩
  have h1 := find_jumpdest_miss _ off hoff
  exact ⟨h1, by simp [jump_dispatch, h1]⟩

/-- C8 (witness): for the code [JUMPDEST, STOP] the single jumpdest offset
0 resolves to target 0, and offset 5 misses with BAD_JUMP_DESTINATION. -/
theorem c8_find_jumpdest_witness :
    (0 : Nat) < (analyze table_ex [0x5b, 0x00]).jumpdest_offsets.length ∧
    find_jumpdest (analyze table_ex [0x5b, 0x00])
      ((analyze table_ex [0x5b, 0x00]).jumpdest_offsets.getD 0 0)
      = (analyze table_ex [0x5b, 0x00]).jumpdest_targets.getD 0 (-1) ∧
    find_jumpdest (analyze table_ex [0x5b, 0x00]) 5 = -1 ∧
    jump_dispatch (analyze table_ex [0x5b, 0x00]) 5 = .error .bad_jump_destination :=
  ⟨by decide,
   (c8_find_jumpdest table_ex [0x5b, 0x00]).1 0 (by decide),
   ((c8_find_jumpdest table_ex [0x5b, 0x00]).2 5 (by decide)).1,
   ((c8_find_jumpdest table_ex [0x5b, 0x00]).2 5 (by decide)).2⟩

/-- C3 (counterexample): the analysis of the one-byte code [STOP] has 4
instruction entries, not 3 — the STOP terminator always opens a fresh
(empty) block, whose BEGINBLOCK precedes the trailing safety STOP. -/
theorem c3_counterexample : (analyze table_ex [0x00]).instrs.length ≠ 3 := by decide

/-- C3 (amended): for every table assigning STOP its base cost 0 and no
stack effect, the analysis of the one-byte code [STOP] has exactly the 4
entries [BEGINBLOCK, STOP-handler, BEGINBLOCK of the empty final block,
STOP-safety], the first block header is all zeroes, and executing with 100
gas terminates with SUCCESS and gas_left = 100. -/
theorem c3_stop_scenario (tbl : op_table) (h : tbl 0x00 = ⟨0, 0, 0⟩) :
    (analyze tbl [0x00]).instrs =
      [⟨0x5b, .block ⟨0, 0, 0⟩⟩, ⟨0x00, default_arg⟩,
       ⟨0x5b, .block ⟨0, 0, 0⟩⟩, ⟨0x00, default_arg⟩] ∧
    exec_loop (analyze tbl [0x00]).instrs 10 0 ⟨100, 0⟩ = some (.success, ⟨100, 0⟩) := by
  have hinstr : (analyze tbl [0x00]).instrs =
      [⟨0x5b, .block ⟨0, 0, 0⟩⟩, ⟨0x00, default_arg⟩,
       ⟨0x5b, .block ⟨0, 0, 0⟩⟩, ⟨0x00, default_arg⟩] := by
    simp [analyze, analyze_loop, init_state, analyze_step, acc_upd, step_arg, next_pos,
      imm_size, closes_block, is_terminator, is_small_push, is_large_push, is_gas_family,
      analyze_finish, set_arg_at, set_last_arg, block_analysis.close, clampNat, clampInt,
      h, default_arg]
  refine ⟨hinstr, ?_⟩
  rw [hinstr]
  decide

/-- C3 (witness): the concrete modelled table satisfies the STOP-entry
hypothesis, and the amended scenario holds for it. -/
theorem c3_stop_scenario_witness :
    table_ex 0x00 = ⟨0, 0, 0⟩ ∧
    ((analyze table_ex [0x00]).instrs =
      [⟨0x5b, .block ⟨0, 0, 0⟩⟩, ⟨0x00, default_arg⟩,
       ⟨0x5b, .block ⟨0, 0, 0⟩⟩, ⟨0x00, default_arg⟩] ∧
     exec_loop (analyze table_ex [0x00]).instrs 10 0 ⟨100, 0⟩
       = some (.success, ⟨100, 0⟩)) :=
  ⟨rfl, c3_stop_scenario table_ex rfl⟩

/-- C9 (counterexample): executing the one-byte code [ADD] with 0 gas stops
at the block prologue with OUT_OF_GAS while the state still holds 0 gas;
the result keeps gas_left = 0, equal to the state's remaining gas, even
though the status is neither SUCCESS nor REVERT — refuting the claimed
"if and only if". -/
theorem c9_counterexample :
    exec_loop (analyze table_ex [0x01]).instrs 10 0 ⟨0, 0⟩
      = some (.out_of_gas, ⟨0, 0⟩) ∧
    result_gas_left .out_of_gas 0 = 0 ∧
    ¬(status_code.out_of_gas = .success ∨ status_code.out_of_gas = .revert) := by
  refine ⟨?_, by decide, by decide⟩
  decide

/-- C9 (amended): the result's gas_left equals the state's remaining gas
exactly when the status is SUCCESS or REVERT or the remaining gas is zero,
and it is zero exactly when the status is neither SUCCESS nor REVERT or the
remaining gas is zero. -/
theorem c9_result_gas (s : status_code) (g : Int) :
    (result_gas_left s g = g ↔ (s = .success ∨ s = .revert ∨ g = 0)) ∧
    (result_gas_left s g = 0 ↔ (¬(s = .success ∨ s = .revert) ∨ g = 0)) := by
  unfold result_gas_left
  by_cases hs : s = .success ∨ s = .revert
  · rw [if_pos hs]
    refine ⟨⟨fun _ => ?_, fun _ => rfl⟩, ?_, ?_⟩
    · rcases hs with h | h
      · exact Or.inl h
      · exact Or.inr (Or.inl h)
    · intro h0
      exact Or.inr h0
    · rintro (h | h)
      · exact absurd hs h
      · exact h
  · rw [if_neg hs]
    refine ⟨⟨fun h0 => Or.inr (Or.inr h0.symm), ?_⟩, ⟨fun _ => Or.inl hs, fun _ => rfl⟩⟩
    rintro (h | h | h)
    · exact absurd (Or.inl h) hs
    · exact absurd (Or.inr h) hs
    · exact h.symm

/-- C4 (witness): concrete instance for the code [JUMPDEST, STOP] — the
offsets are strictly ascending and target 0 names a BEGINBLOCK. -/
theorem c4_jumpdest_tables_witness :
    List.Pairwise (· < ·) (analyze table_ex [0x5b, 0x00]).jumpdest_offsets ∧
    ((0 : Int) ∈ (analyze table_ex [0x5b, 0x00]).jumpdest_targets ∧
      ∃ i : Nat, (0 : Int) = (i : Int) ∧
        i < (analyze table_ex [0x5b, 0x00]).instrs.length ∧
        ((analyze table_ex [0x5b, 0x00]).instrs.getD i dummy_instr).fn = 0x5b) :=
  ⟨(c4_jumpdest_tables table_ex [0x5b, 0x00]).1,
   by decide,
   (c4_jumpdest_tables table_ex [0x5b, 0x00]).2.2 0 (by decide)⟩

/-- C10 (witness): concrete instance for the code [JUMPDEST, STOP]. -/
theorem c10_instrs_bounds_witness :
    2 ≤ (analyze table_ex [0x5b, 0x00]).instrs.length ∧
    ((0 : Int) ∈ (analyze table_ex [0x5b, 0x00]).jumpdest_targets ∧
      0 ≤ (0 : Int) ∧ (0 : Int) < ((analyze table_ex [0x5b, 0x00]).instrs.length : Int)) :=
  ⟨(c10_instrs_bounds table_ex [0x5b, 0x00]).1,
   by decide,
   (c10_instrs_bounds table_ex [0x5b, 0x00]).2.2.2 0 (by decide)⟩

/-- C9 (witness): concrete instance of the amended gas-retention rule. -/
theorem c9_result_gas_witness :
    (result_gas_left .out_of_gas 7 = 7 ↔
      (status_code.out_of_gas = .success ∨ status_code.out_of_gas = .revert ∨ (7 : Int) = 0)) ∧
    (result_gas_left .out_of_gas 7 = 0 ↔
      (¬(status_code.out_of_gas = .success ∨ status_code.out_of_gas = .revert) ∨
        (7 : Int) = 0)) :=
  c9_result_gas .out_of_gas 7

end evmone
